import Mathlib

/-!
# Verification of the SocialNetworkGraphs core (CapGraph / CapNode)

Shallow embedding of the TypeScript sources src/core/CapGraph.ts and
src/core/CapNode.ts.  JavaScript integers (graph vertex IDs) are modelled
as Int.  A JavaScript Map is modelled as an association list in insertion
order: Map.prototype.set on an existing key replaces the value in place
(keeping the key position), otherwise it appends; iteration follows
insertion order.  A JavaScript Set used only for membership tests and
insertion-ordered iteration is modelled as a duplicate-free List built by
guarded append.  Methods that can throw (getVertex on an absent ID) return
Option; a thrown exception is modelled as none, and operations that mutate
before throwing return the mutated state together with an error flag,
matching the fact that a JavaScript exception does not roll back earlier
mutations.
-/

namespace SNG

/-- Embedding of CapNode (src/core/CapNode.ts): a vertex with its ID
(`name`), outgoing-edge list (`neighbors`, the IDs this user follows),
incoming-edge list (`followers`) and the trend-setter flag. -/
structure CapNode where
  name : Int
  neighbors : List Int
  followers : List Int
  isTrendSetter : Bool
deriving Repr, DecidableEq

/-- CapNode constructor: `new CapNode(name)` with empty edge lists and the
flag defaulted to false. -/
def CapNode.mkNew (name : Int) : CapNode :=
  { name := name, neighbors := [], followers := [], isTrendSetter := false }

/-- Embedding of CapGraph's `listMap : Map<number, CapNode>` as an
insertion-ordered association list. -/
structure CapGraph where
  listMap : List (Int × CapNode)
deriving Repr, DecidableEq

/-- The key list of the map, in insertion order. -/
def keysList (g : CapGraph) : List Int :=
  g.listMap.map Prod.fst

/-- `Map.prototype.set`: replace in place when the key is present,
otherwise append at the end. -/
def mapSet (m : List (Int × CapNode)) (k : Int) (v : CapNode) :
    List (Int × CapNode) :=
  if k ∈ m.map Prod.fst then
    m.map (fun p => if p.1 = k then (k, v) else p)
  else m ++ [(k, v)]

/-- `getVertex(num)`: `listMap.get(num)`; the JS method throws when the
vertex is absent, modelled by none. -/
def getVertex (g : CapGraph) (num : Int) : Option CapNode :=
  (g.listMap.find? (fun p => p.1 == num)).map Prod.snd

/-- `getVertexIDs()`: `new Set(listMap.keys())` — the key set in insertion
order (duplicate-free for graphs with duplicate-free keys). -/
def getVertexIDs (g : CapGraph) : List Int :=
  keysList g

/-- `addVertex(num)`: `listMap.set(num, new CapNode(num))`; silently
overwrites an existing vertex (last write wins). -/
def addVertex (g : CapGraph) (num : Int) : CapGraph :=
  { listMap := mapSet g.listMap num (CapNode.mkNew num) }

/-- In-place mutation of the node object stored under key `k` (JS mutates
the CapNode object the map points to; in the embedding the entry's value
is updated, the key is untouched). -/
def updateNode (g : CapGraph) (k : Int) (f : CapNode → CapNode) : CapGraph :=
  { listMap := g.listMap.map (fun p => if p.1 = k then (p.1, f p.2) else p) }

/-- The empty graph: `new CapGraph()`. -/
def emptyGraph : CapGraph := { listMap := [] }

/-- `new CapGraph(node)`: the one-argument constructor adds the node. -/
def mkGraph (node : Int) : CapGraph := addVertex emptyGraph node

/-- `addEdge(from, to)`: `getVertex(from)` (throws if absent), then
`fromNode.addNeighbor(to)`, then `getVertex(to)` (throws if absent), then
`toNode.addFollower(from)`.  The Bool is the error flag (true = a throw
happened); the returned graph is the state at that moment — in particular
a throw on the second lookup does not undo the neighbor push. -/
def addEdge (g : CapGraph) (f t : Int) : Bool × CapGraph :=
  match getVertex g f with
  | none => (true, g)
  | some _ =>
    let g1 := updateNode g f (fun nd => { nd with neighbors := nd.neighbors ++ [t] })
    match getVertex g1 t with
    | none => (true, g1)
    | some _ =>
      (false, updateNode g1 t (fun nd => { nd with followers := nd.followers ++ [f] }))

/-- `Array.prototype.indexOf`: index of the first occurrence, or -1. -/
def jsIndexOf (l : List Int) (x : Int) : Int :=
  match l.findIdx? (fun y => y == x) with
  | some i => (i : Int)
  | none => -1

/-- `Array.prototype.splice(start, 1)`: a negative start counts from the
end (clamped at 0), an in-range start removes the element there, a start
at or past the length removes nothing. -/
def jsSplice1 (l : List Int) (start : Int) : List Int :=
  let s : Nat := if start < 0 then (((l.length : Int)) + start).toNat else start.toNat
  l.eraseIdx s

/-- `CapNode.removeNeighbor(neighbor)`: looks up the first index of
`neighbor`; when absent it logs a diagnostic (index -1) and then STILL
calls `splice(index, 1)`, so `splice(-1, 1)` removes the last element of
a non-empty list. -/
def removeNeighbor (l : List Int) (neighbor : Int) : List Int :=
  jsSplice1 l (jsIndexOf l neighbor)

/-- `removeEdge(from, to)`: `getVertex(from)` (throws if absent, flag
true), then `fromNode.removeNeighbor(to)`; `to.followers` is never
touched. -/
def removeEdge (g : CapGraph) (f t : Int) : Bool × CapGraph :=
  match getVertex g f with
  | none => (true, g)
  | some _ =>
    (false, updateNode g f (fun nd => { nd with neighbors := removeNeighbor nd.neighbors t }))

/-- State threaded through `dfsVisit`: the `visited` set (insertion-ordered,
duplicate-free), the `finished` list (built by `unshift`, i.e. prepend) and
the `sccNodeIDs` accumulator (built by `push`, i.e. append). -/
structure DfsSt where
  visited : List Int
  finished : List Int
  scc : List Int
deriving Repr, DecidableEq

/-- The `neighbors.forEach` loop body of `dfsVisit`: visit each
not-yet-visited entry in list order with the recursive visitor `rec`,
threading the state. -/
def dfsList (rec : Int → DfsSt → Option DfsSt) : List Int → DfsSt → Option DfsSt
  | [], st => some st
  | n :: rest, st =>
    if n ∈ st.visited then dfsList rec rest st
    else
      match rec n st with
      | none => none
      | some st2 => dfsList rec rest st2

/-- `dfsVisit(graph, v, visited, finished, sccNodeIDs)`: mark v visited,
recursively visit each not-yet-visited neighbor in list order, then
`finished.unshift(v)` and `sccNodeIDs.push(v)`.  The JS recursion
terminates because `visited` grows; the embedding makes that explicit
with fuel (none = out of fuel), and callers pass fuel at least the
number of vertices, which bounds the recursion depth. -/
def dfsVisit (g : CapGraph) : Nat → Int → DfsSt → Option DfsSt
  | 0, _, _ => none
  | fuel + 1, v, st =>
    match getVertex g v with
    | none => none
    | some node =>
      match dfsList (dfsVisit g fuel) node.neighbors { st with visited := st.visited ++ [v] } with
      | none => none
      | some st2 => some { st2 with finished := v :: st2.finished, scc := st2.scc ++ [v] }

/-- The first-pass loop `dfs(graph, vertices, sccNodeIDs)`: repeatedly
`vertices.pop()` (take from the END of the array) and run `dfsVisit` on
not-yet-visited vertices; returns the `finished` list.  The embedding
consumes the worklist head-first, so the caller passes the reverse of the
array the source pops from. -/
def dfsLoop (g : CapGraph) (fuel : Nat) : List Int → DfsSt → Option (List Int)
  | [], st => some st.finished
  | v :: rest, st =>
    if v ∈ st.visited then dfsLoop g fuel rest st
    else
      match dfsVisit g fuel v st with
      | none => none
      | some st2 => dfsLoop g fuel rest st2

/-- `transpose(graph)`: for every vertex v (in key order) add v if absent,
then for each neighbor n of v add n if absent and push v onto n's
neighbor list in the transpose. -/
def transpose (g : CapGraph) : CapGraph :=
  g.listMap.foldl
    (fun tg p =>
      let v := p.1
      let node := p.2
      let tg := if v ∈ getVertexIDs tg then tg else addVertex tg v
      node.neighbors.foldl
        (fun tg n =>
          let tg := if n ∈ getVertexIDs tg then tg else addVertex tg n
          updateNode tg n (fun nd => { nd with neighbors := nd.neighbors ++ [v] }))
        tg)
    emptyGraph

/-- The component-materialisation step of `dfsGraphList`: `new CapGraph(v)`
followed by, for each ID of the batch, `addVertex` and a copy of ALL of
that vertex's outgoing neighbors from the ORIGINAL graph (`this`), not
filtered to the component. -/
def buildComponent (orig : CapGraph) (v : Int) : List Int → CapGraph → Option CapGraph
  | [], scc => some scc
  | nodeID :: rest, scc =>
    match getVertex orig nodeID with
    | none => none
    | some origNode =>
      let scc := addVertex scc nodeID
      let scc := updateNode scc nodeID
        (fun nd => { nd with neighbors := nd.neighbors ++ origNode.neighbors })
      buildComponent orig v rest scc

/-- The second-pass loop `dfsGraphList(graph, vertices, sccNodeIDs)` run on
the transpose: `vertices.pop()` from the END (the worklist passed here is
already reversed, consumed head-first); an unvisited pop becomes a DFS
root, the remaining worklist is filtered by the batch just collected, and
each batch is materialised via `new CapGraph(v)` plus the original
neighbor lists.  `roots` is a ghost trace recording each popped vertex
that triggered a DFS, in order; it changes no behaviour.  The first Nat
is iteration fuel: the JS loop ends because the worklist shrinks every
iteration, so callers pass the worklist length plus one. -/
def dfsGraphList (orig g : CapGraph) (fuel : Nat) :
    Nat → List Int → List Int → List CapGraph → List Int →
    Option (List CapGraph × List Int)
  | _, [], _, acc, roots => some (acc, roots)
  | 0, _ :: _, _, _, _ => none
  | iter + 1, v :: rest, visited, acc, roots =>
    if v ∈ visited then
      match buildComponent orig v [] (mkGraph v) with
      | none => none
      | some scc => dfsGraphList orig g fuel iter rest visited (acc ++ [scc]) roots
    else
      match dfsVisit g fuel v { visited := visited, finished := [], scc := [] } with
      | none => none
      | some st2 =>
        let batch := st2.scc
        let rest2 := rest.filter (fun id => id ∉ batch)
        match buildComponent orig v batch (mkGraph v) with
        | none => none
        | some scc =>
          dfsGraphList orig g fuel iter rest2 st2.visited (acc ++ [scc]) (roots ++ [v])

/-- Result of `getSCCs()`: `comps` is the returned `Graph[]`; `finished`
(the first-pass finish list) and `roots` (the second-pass DFS roots in
the order they were popped) are ghost observations of the run. -/
structure SCCResult where
  comps : List CapGraph
  finished : List Int
  roots : List Int
deriving Repr, DecidableEq

/-- `getSCCs()`: first pass over the original graph with the vertex-ID
array as stack, transpose construction, then the second pass over the
transpose using the `finished` list as stack.  Both stacks are popped
from the END, so the embedding hands each loop the reversed array.  The
fuel handed to every `dfsVisit` is the vertex count, which bounds the
depth of the visit recursion. -/
def getSCCs (g : CapGraph) : Option SCCResult :=
  let fuel := g.listMap.length
  let vertexStack := getVertexIDs g
  match dfsLoop g fuel vertexStack.reverse { visited := [], finished := [], scc := [] } with
  | none => none
  | some finished =>
    let tg := transpose g
    match dfsGraphList g tg fuel (finished.length + 1) finished.reverse [] [] [] with
    | none => none
    | some (comps, roots) => some { comps := comps, finished := finished, roots := roots }

/-- `Math.ceil(number * percentage)` from `calculatePercent`, for a
percentage `pnum / pden`; the percentages used are 0.1 = 1/10 and
0.2 = 1/5.  Computed by Nat ceiling division, which equals the exact
rational ceiling (theorem `calculatePercent_eq_ceil` below), which in
turn equals the double-precision `Math.ceil(number * 0.1)` and
`Math.ceil(number * 0.2)` at every list length arising here (the rounded
product's relative offset, 2 to the -54, is under a half ulp, so the
product never crosses an integer). -/
def calculatePercent (number : Nat) (pnum pden : Nat) : Nat :=
  (number * pnum + pden - 1) / pden

/-- Looking up each ID of a list in the graph (`this.getVertex(nodeID)`),
in order; none when any lookup throws. -/
def lookupNodes (g : CapGraph) : List Int → Option (List CapNode)
  | [] => some []
  | id :: rest =>
    match getVertex g id with
    | none => none
    | some nd => (lookupNodes g rest).map (fun l => nd :: l)

/-- `buildNodeQueue(pqSize, graph, comparator)`: collect the component's
nodes FROM THE ORIGINAL GRAPH (`this.getVertex`), then
`sort((a, b) => -comparator.compare(a, b))` — a stable sort descending by
`getNumNeighbors()` (out-degree), the V8 `Array.prototype.sort` being
stable. -/
def buildNodeQueue (g : CapGraph) (scc : CapGraph) : Option (List CapNode) :=
  (lookupNodes g (getVertexIDs scc)).map
    (fun nodes => nodes.mergeSort (fun a b => b.neighbors.length ≤ a.neighbors.length))

/-- The `for (let i = 0; i < numTrendSetters; i++) { queue.shift().setIsTrendSetter(true) }`
loop: the first `num` queue entries are node objects of the original
graph; marking them mutates the original graph's vertices. -/
def markTrendSetters (g : CapGraph) (ids : List Int) : CapGraph :=
  ids.foldl (fun g id => updateNode g id (fun nd => { nd with isTrendSetter := true })) g

/-- The `SCCList.forEach` body of `identifyTrendSetters`, threading the
(mutated) original graph through the components. -/
def identifyLoop (g : CapGraph) : List CapGraph → Option CapGraph
  | [] => some g
  | scc :: rest =>
    let graphSize := (getVertexIDs scc).length
    if 2 < graphSize then
      let numTrendSetters := calculatePercent graphSize 1 10
      match buildNodeQueue g scc with
      | none => none
      | some followersQueue =>
        identifyLoop (markTrendSetters g ((followersQueue.take numTrendSetters).map CapNode.name)) rest
    else identifyLoop g rest

/-- `identifyTrendSetters()`: run `getSCCs` (via `getSCCList`) and flag the
top `ceil(0.1 × size)` nodes of every component of size > 2.  Returns the
mutated original graph. -/
def identifyTrendSetters (g : CapGraph) : Option CapGraph :=
  match getSCCs g with
  | none => none
  | some r => identifyLoop g r.comps

/-- The trend-setter scan of `shareVideo`: walk the follower list in
order, incrementing `followersExposed` on already-viewed followers and
returning true (early abort) as soon as the count exceeds the cap. -/
def exceedsCapScan (viewed : List Int) (cap : Nat) : List Int → Nat → Bool
  | [], _ => false
  | f :: rest, exposed =>
    if f ∈ viewed then
      if cap < exposed + 1 then true
      else exceedsCapScan viewed cap rest (exposed + 1)
    else exceedsCapScan viewed cap rest exposed

/-- `if (!alreadyViewed.has(nodeID)) alreadyViewed.add(nodeID)`: Set add
modelled by guarded append. -/
def addViewed (nodeID : Int) (viewed : List Int) : List Int :=
  if nodeID ∈ viewed then viewed else viewed ++ [nodeID]

/-- One step of the final `nodeFollowers.forEach` of `shareVideo`: push
the follower onto the queue if not currently in it, and add it to the
viewed set. -/
def enqueueStep (st : List Int × List Int) (f : Int) : List Int × List Int :=
  (if f ∈ st.1 then st.1 else st.1 ++ [f],
   if f ∈ st.2 then st.2 else st.2 ++ [f])

/-- `shareVideo(nodeID, toVisit, alreadyViewed)`: add the node itself to
the viewed set if absent; for a trend setter, scan the followers and give
up entirely when more than `ceil(0.2 × |followers|)` of them were already
viewed; otherwise enqueue every follower not currently in the queue and
mark every follower viewed.  Returns the updated (toVisit, alreadyViewed). -/
def shareVideo (g : CapGraph) (nodeID : Int) (toVisit viewed : List Int) :
    Option (List Int × List Int) :=
  match getVertex g nodeID with
  | none => none
  | some node =>
    let viewed := addViewed nodeID viewed
    let nodeFollowers := node.followers
    let maxFollowerViews := calculatePercent nodeFollowers.length 1 5
    if node.isTrendSetter && exceedsCapScan viewed maxFollowerViews nodeFollowers 0 then
      some (toVisit, viewed)
    else
      some (nodeFollowers.foldl enqueueStep (toVisit, viewed))

/-- `addVertices(subGraph, nodes)`: for each node ID not yet in the
subgraph, add a fresh vertex and copy the ORIGINAL graph's full outgoing
neighbor list onto it. -/
def addVertices (g : CapGraph) : List Int → CapGraph → Option CapGraph
  | [], sub => some sub
  | nodeID :: rest, sub =>
    if nodeID ∈ getVertexIDs sub then addVertices g rest sub
    else
      match getVertex g nodeID with
      | none => none
      | some origNode =>
        let sub := addVertex sub nodeID
        let sub := updateNode sub nodeID
          (fun nd => { nd with neighbors := nd.neighbors ++ origNode.neighbors })
        addVertices g rest sub

/-- `shouldContinueGenerating(generationNum, maxGenerationNum,
previousLength, currentLength)`. -/
def shouldContinueGenerating (generationNum maxGenerationNum previousLength currentLength : Nat) :
    Bool :=
  generationNum ≤ maxGenerationNum && previousLength ≠ currentLength

/-- State of one `startViralSharing` run.  `emissions` records the
`OutputFormatter.viralSimulationGeneration(n, ids)` calls (the externally
observable generation snapshots); `shareCalls` is a ghost trace of the
node IDs `shareVideo` was invoked on, in order — it changes no
behaviour. -/
structure ViralSt where
  toVisit : List Int
  visited : List Int
  alreadyViewed : List Int
  subGraph : CapGraph
  n : Nat
  prevLen : Nat
  emissions : List (Nat × List Int)
  shareCalls : List Int
deriving Repr, DecidableEq

/-- One iteration body of the `while (toVisit.length > 0)` loop of
`startViralSharing`, after the queue head `nodeID` was shifted off
leaving `rest`: if unvisited, run `shareVideo` and mark visited (and
record the ghost trace entry); rebuild the visited-induced subgraph; emit
a generation snapshot when `shouldContinueGenerating` allows. -/
def viralStep (g : CapGraph) (nodeID : Int) (rest : List Int) (st : ViralSt) :
    Option ViralSt :=
  let step : Option ViralSt :=
    if nodeID ∈ st.visited then some { st with toVisit := rest }
    else
      match shareVideo g nodeID rest st.alreadyViewed with
      | none => none
      | some (tv, vw) =>
        some { st with toVisit := tv, alreadyViewed := vw,
                       visited := st.visited ++ [nodeID],
                       shareCalls := st.shareCalls ++ [nodeID] }
  match step with
  | none => none
  | some st1 =>
    match addVertices g st1.visited st1.subGraph with
    | none => none
    | some sub =>
      let currentGraphLength := (getVertexIDs sub).length
      some
        (if shouldContinueGenerating st1.n 10 st1.prevLen currentGraphLength then
          { st1 with subGraph := sub, prevLen := currentGraphLength, n := st1.n + 1,
                     emissions := st1.emissions ++ [(st1.n, getVertexIDs sub)] }
        else { st1 with subGraph := sub })

/-- The `while (toVisit.length > 0)` loop of `startViralSharing`.  Fuel
counts loop iterations (none = out of fuel); the termination theorems
produce a sufficient fuel. -/
def viralLoop (g : CapGraph) : Nat → ViralSt → Option ViralSt
  | 0, _ => none
  | fuel + 1, st =>
    match st.toVisit with
    | [] => some st
    | nodeID :: rest =>
      match viralStep g nodeID rest st with
      | none => none
      | some st2 => viralLoop g fuel st2

/-- `startViralSharing(startingNodeID)`: seed the viewed set with the
start node, seed the queue with the start node followed by all its
followers, and run the processing loop. -/
def startViralSharing (g : CapGraph) (startingNodeID : Int) (fuel : Nat) : Option ViralSt :=
  match getVertex g startingNodeID with
  | none => none
  | some startingNode =>
    viralLoop g fuel
      { toVisit := startingNodeID :: startingNode.followers,
        visited := [], alreadyViewed := [startingNodeID],
        subGraph := emptyGraph, n := 1, prevLen := 0,
        emissions := [], shareCalls := [] }

/-- One step of the final `nodeFollowers.forEach` of
`shareVideoWithDepth`: the queue-membership test compares only the node
component and a push carries `currentDepth + 1`. -/
def enqueueStepDepth (currentDepth : Nat) (st : List (Int × Nat) × List Int) (f : Int) :
    List (Int × Nat) × List Int :=
  (if st.1.any (fun item => item.1 == f) then st.1 else st.1 ++ [(f, currentDepth + 1)],
   if f ∈ st.2 then st.2 else st.2 ++ [f])

/-- `shareVideoWithDepth`: as `shareVideo` but queue items carry a depth,
the membership test compares only the node component
(`toVisit.some(item => item.node === followerID)`), and pushes carry
`currentDepth + 1`. -/
def shareVideoWithDepth (g : CapGraph) (nodeID : Int) (toVisit : List (Int × Nat))
    (viewed : List Int) (currentDepth : Nat) : Option (List (Int × Nat) × List Int) :=
  match getVertex g nodeID with
  | none => none
  | some node =>
    let viewed := addViewed nodeID viewed
    let nodeFollowers := node.followers
    let maxFollowerViews := calculatePercent nodeFollowers.length 1 5
    if node.isTrendSetter && exceedsCapScan viewed maxFollowerViews nodeFollowers 0 then
      some (toVisit, viewed)
    else
      some (nodeFollowers.foldl (enqueueStepDepth currentDepth) (toVisit, viewed))

/-- State of one `startViralSharingWithLimit` run; `emissions` records the
generation console lines as (generation, node count); `shareCalls` is the
ghost invocation trace. -/
structure ViralSt2 where
  toVisit : List (Int × Nat)
  visited : List Int
  alreadyViewed : List Int
  subGraph : CapGraph
  n : Nat
  prevLen : Nat
  emissions : List (Nat × Nat)
  shareCalls : List Int
deriving Repr, DecidableEq

/-- One iteration body of `startViralSharingWithLimit` for a queue item
within the depth bound, mirroring `viralStep` with depth-carrying pushes
and count-only generation lines. -/
def viralStepLimit (g : CapGraph) (nodeID : Int) (depth : Nat) (rest : List (Int × Nat))
    (st : ViralSt2) : Option ViralSt2 :=
  let step : Option ViralSt2 :=
    if nodeID ∈ st.visited then some { st with toVisit := rest }
    else
      match shareVideoWithDepth g nodeID rest st.alreadyViewed depth with
      | none => none
      | some (tv, vw) =>
        some { st with toVisit := tv, alreadyViewed := vw,
                       visited := st.visited ++ [nodeID],
                       shareCalls := st.shareCalls ++ [nodeID] }
  match step with
  | none => none
  | some st1 =>
    match addVertices g st1.visited st1.subGraph with
    | none => none
    | some sub =>
      let currentGraphLength := (getVertexIDs sub).length
      some
        (if shouldContinueGenerating st1.n 10 st1.prevLen currentGraphLength then
          { st1 with subGraph := sub, prevLen := currentGraphLength, n := st1.n + 1,
                     emissions := st1.emissions ++ [(st1.n, currentGraphLength)] }
        else { st1 with subGraph := sub })

/-- The `while` loop of `startViralSharingWithLimit`: items past the depth
bound are discarded (`continue` skips the whole body), otherwise as in
`startViralSharing`, and after each body the 100000-visited safety valve
breaks the loop. -/
def viralLoopLimit (g : CapGraph) (maxDepth : Nat) : Nat → ViralSt2 → Option ViralSt2
  | 0, _ => none
  | fuel + 1, st =>
    match st.toVisit with
    | [] => some st
    | (nodeID, depth) :: rest =>
      if maxDepth < depth then viralLoopLimit g maxDepth fuel { st with toVisit := rest }
      else
        match viralStepLimit g nodeID depth rest st with
        | none => none
        | some st2 =>
          if 100000 < st2.visited.length then some st2
          else viralLoopLimit g maxDepth fuel st2

/-- `startViralSharingWithLimit(startingNodeID, maxDepth)`: the start node
enters at depth 0, its followers at depth 1. -/
def startViralSharingWithLimit (g : CapGraph) (startingNodeID : Int) (maxDepth : Nat)
    (fuel : Nat) : Option ViralSt2 :=
  match getVertex g startingNodeID with
  | none => none
  | some startingNode =>
    viralLoopLimit g maxDepth fuel
      { toVisit := (startingNodeID, 0) :: startingNode.followers.map (fun f => (f, 1)),
        visited := [], alreadyViewed := [startingNodeID],
        subGraph := emptyGraph, n := 1, prevLen := 0,
        emissions := [], shareCalls := [] }

/-- A directed path in the graph's edge set: `Reaches g u v` holds when v
can be reached from u by following `neighbors` entries. -/
inductive Reaches (g : CapGraph) : Int → Int → Prop
  | refl (v : Int) : Reaches g v v
  | step {u v w : Int} (node : CapNode) (hu : getVertex g u = some node)
      (hv : v ∈ node.neighbors) (h : Reaches g v w) : Reaches g u w

/-- Well-formedness of a graph: duplicate-free keys, every stored node
named by its key, and every neighbor and follower reference resolving to
a key (the closure invariant). -/
def WF (g : CapGraph) : Prop :=
  (keysList g).Nodup ∧
    ∀ p ∈ g.listMap, p.2.name = p.1 ∧
      (∀ n ∈ p.2.neighbors, n ∈ keysList g) ∧
      (∀ f ∈ p.2.followers, f ∈ keysList g)

instance : DecidablePred WF := fun g => by
  unfold WF; infer_instance

/-- All trend-setter flags cleared: the state of a freshly built graph. -/
def FreshFlags (g : CapGraph) : Prop :=
  ∀ p ∈ g.listMap, p.2.isTrendSetter = false

instance : DecidablePred FreshFlags := fun g => by
  unfold FreshFlags; infer_instance

/-- How many of the given IDs carry the trend-setter flag in g. -/
def flagCount (g : CapGraph) (ids : List Int) : Nat :=
  (ids.filter (fun id => ((getVertex g id).map CapNode.isTrendSetter).getD false)).length

/-- Example graph: vertices 1, 2 and the single edge 1 → 2, built through
the public operations. -/
def exGraph2 : CapGraph :=
  (addEdge (addVertex (addVertex emptyGraph 1) 2) 1 2).2

/-- Example graph: the directed triangle 1 → 2 → 3 → 1, built through the
public operations. -/
def gTriangle : CapGraph :=
  (addEdge (addEdge (addEdge (addVertex (addVertex (addVertex emptyGraph 1) 2) 3) 1 2).2 2 3).2 3 1).2

/-- Example graph: vertex 1 following 2 and 3 (edges 1 → 2, 1 → 3). -/
def exGraphFan : CapGraph :=
  (addEdge (addEdge (addVertex (addVertex (addVertex emptyGraph 1) 2) 3) 1 2).2 1 3).2

/-- Example graph: the single vertex 1 and no edges. -/
def exGraph1 : CapGraph := addVertex emptyGraph 1

/-- Example graph state for the saturation gate: node 1 is a trend setter
with followers 2 and 3. -/
def gGate : CapGraph :=
  { listMap :=
      [(1, { name := 1, neighbors := [], followers := [2, 3], isTrendSetter := true }),
       (2, { name := 2, neighbors := [1], followers := [], isTrendSetter := false }),
       (3, { name := 3, neighbors := [1], followers := [], isTrendSetter := false })] }

/-- The follower-list length of a vertex (0 for an absent ID); used only
by the termination measure. -/
def followersLenOf (g : CapGraph) (k : Int) : Nat :=
  ((getVertex g k).map (fun nd => nd.followers.length)).getD 0

/-- Total enqueue potential of the not-yet-visited vertices: each can be
newly visited at most once, pushing at most its follower count. -/
def unvisitedWeight (g : CapGraph) (visited : List Int) : Nat :=
  (((keysList g).filter (fun k => k ∉ visited)).map (fun k => followersLenOf g k + 1)).sum

/-- Termination measure for `viralLoop`: strictly decreases at every
iteration. -/
def viralMeasure (g : CapGraph) (st : ViralSt) : Nat :=
  st.toVisit.length + unvisitedWeight g st.visited

/-- Termination measure for `viralLoopLimit`. -/
def viralMeasure2 (g : CapGraph) (st : ViralSt2) : Nat :=
  st.toVisit.length + unvisitedWeight g st.visited

/-- The closure invariant of the spec: every ID appearing in any vertex's
following (neighbors) or followers list is present as a key. -/
def ClosedRefs (g : CapGraph) : Prop :=
  ∀ p ∈ g.listMap, (∀ n ∈ p.2.neighbors, n ∈ keysList g) ∧
    (∀ f ∈ p.2.followers, f ∈ keysList g)

/-- Graphs reachable from the empty graph through SUCCESSFUL public
operations: any addVertex, successful addEdge (error flag false), and
removeEdge (which never mutates on error, so it is included
unconditionally). -/
inductive OpReach : CapGraph → Prop
  | empty : OpReach emptyGraph
  | addV (g : CapGraph) (n : Int) : OpReach g → OpReach (addVertex g n)
  | addE (g : CapGraph) (f t : Int) : OpReach g → (addEdge g f t).1 = false →
      OpReach (addEdge g f t).2
  | remE (g : CapGraph) (f t : Int) : OpReach g → OpReach (removeEdge g f t).2

/-- Neighbor closure alone: every outgoing reference is a key (the part
of well-formedness the depth-first search needs). -/
def NbrClosed (g : CapGraph) : Prop :=
  ∀ p ∈ g.listMap, ∀ n ∈ p.2.neighbors, n ∈ keysList g

/-- How many keys are not yet visited; bounds the depth of the DFS
recursion. -/
def unvisitedCount (g : CapGraph) (visited : List Int) : Nat :=
  ((keysList g).filter (fun k => k ∉ visited)).length

/-- Verification postcondition of `dfsVisit`: the call succeeds and
appends a batch of newly visited vertices `nv` to the visited set, whose
exit order `l` (a permutation of `nv`) is appended to `sccNodeIDs` and
prepended, reversed, to `finished`. -/
def DfsVisitPost (g : CapGraph) (fuel : Nat) (v : Int) (st : DfsSt) : Prop :=
  ∃ nv l, dfsVisit g fuel v st =
      some { visited := st.visited ++ nv, finished := l.reverse ++ st.finished,
             scc := st.scc ++ l } ∧
    l.Perm nv ∧ v ∈ nv ∧ (∀ x ∈ nv, x ∈ keysList g ∧ x ∉ st.visited) ∧ nv.Nodup

/-- Verification postcondition of `dfsList` (the `forEach` over a
neighbor list), mirroring `DfsVisitPost` without the root-membership
conjunct. -/
def DfsListPost (g : CapGraph) (fuel : Nat) (ns : List Int) (st : DfsSt) : Prop :=
  ∃ nv l, dfsList (dfsVisit g fuel) ns st =
      some { visited := st.visited ++ nv, finished := l.reverse ++ st.finished,
             scc := st.scc ++ l } ∧
    l.Perm nv ∧ (∀ x ∈ nv, x ∈ keysList g ∧ x ∉ st.visited) ∧ nv.Nodup

/-- The flag-independent part of a vertex: identity and both edge lists. -/
def nodeShape (nd : CapNode) : Int × List Int × List Int :=
  (nd.name, nd.neighbors, nd.followers)

/-- Whether the vertex stored under an ID carries the trend-setter flag. -/
def flaggedIn (g : CapGraph) (k : Int) : Bool :=
  ((getVertex g k).map CapNode.isTrendSetter).getD false

/-- The triangle graph after `identifyTrendSetters()` (the computed
result; `emptyGraph` is an unreachable default). -/
def gTriangleTS : CapGraph :=
  (identifyTrendSetters gTriangle).getD emptyGraph

/-- The SCC result computed on the triangle graph (the empty result is an
unreachable default). -/
def gTriangleSCC : SCCResult :=
  (getSCCs gTriangle).getD { comps := [], finished := [], roots := [] }

end SNG

namespace SNG

/-! ## Inversion and evaluation helpers -/

/-- Inversion for `Reaches`: a path is empty or starts with an edge. -/
theorem reaches_inv {g : CapGraph} {u w : Int} (h : Reaches g u w) :
    u = w ∨ ∃ node v, getVertex g u = some node ∧ v ∈ node.neighbors ∧ Reaches g v w := by
  cases h with
  | refl v => exact Or.inl rfl
  | step node hu hv hrest => exact Or.inr ⟨node, _, hu, hv, hrest⟩

/-- `calculatePercent` computes the exact rational ceiling of
`number * (pnum / pden)` whenever the denominator is positive. -/
theorem calculatePercent_eq_ceil (n pnum pden : Nat) (hden : 0 < pden) :
    calculatePercent n pnum pden = (Int.ceil ((n : ℚ) * ((pnum : ℚ) / (pden : ℚ)))).toNat := by
  unfold calculatePercent
  set a : Nat := n * pnum with ha
  set q : Nat := (a + pden - 1) / pden with hq
  have hmod : pden * q + (a + pden - 1) % pden = a + pden - 1 := by
    rw [hq]; exact Nat.div_add_mod _ _
  have hlt : (a + pden - 1) % pden < pden := Nat.mod_lt _ hden
  have hub : a ≤ pden * q := by omega
  have hlb : pden * q < a + pden := by omega
  have hcast : ((n : ℚ) * ((pnum : ℚ) / (pden : ℚ))) = (a : ℚ) / (pden : ℚ) := by
    rw [ha]; push_cast; ring
  have hpden : (0 : ℚ) < (pden : ℚ) := by exact_mod_cast hden
  have hceil : Int.ceil ((a : ℚ) / (pden : ℚ)) = (q : Int) := by
    rw [Int.ceil_eq_iff]
    constructor
    · rw [lt_div_iff₀ hpden]
      push_cast
      have h1 : ((pden : ℚ) * (q : ℚ)) < (a : ℚ) + (pden : ℚ) := by exact_mod_cast hlb
      nlinarith
    · rw [div_le_iff₀ hpden]
      push_cast
      have h2 : ((a : ℚ)) ≤ (pden : ℚ) * (q : ℚ) := by exact_mod_cast hub
      nlinarith
  rw [hcast, hceil]
  simp

/-- Witness that the `calculatePercent` witness arithmetic matches the
spec's examples: `ceil(0.1 × 14) = 2` and `ceil(0.2 × 5) = 1`. -/
theorem calculatePercent_examples :
    calculatePercent 14 1 10 = 2 ∧ calculatePercent 5 1 5 = 1 := by decide

end SNG

namespace SNG

/-! ## Claim C1 and C2: the broken second-pass order of getSCCs -/

/-- Claim C1: the claim states that any two vertices placed in the same
component by `getSCCs()` are mutually reachable in the original edge set.
On the two-vertex graph with the single edge 1 → 2, `getSCCs()` returns a
single component whose vertex set is {2, 1}, yet there is no directed
path from 2 to 1: the code contradicts the claimed (and intended)
strongly-connected-component guarantee, because the second pass pops its
DFS roots from the wrong end of the `finished` list. -/
theorem getSCCs_not_mutually_reachable_bug :
    ((getSCCs exGraph2).map fun r => r.comps.map keysList) = some [[2, 1]] ∧
      ¬ Reaches exGraph2 2 1 := by
  refine ⟨by decide, fun h => ?_⟩
  rcases reaches_inv h with h21 | ⟨node, v, hu, hv, _⟩
  · exact absurd h21 (by decide)
  · have hnode : node = { name := 2, neighbors := [], followers := [1], isTrendSetter := false } := by
      have : getVertex exGraph2 2 =
          some { name := 2, neighbors := [], followers := [1], isTrendSetter := false } := by decide
      rw [this] at hu
      exact (Option.some_inj.mp hu).symm
    rw [hnode] at hv
    exact absurd hv (List.not_mem_nil v)

/-- Claim C2: the claim states that the first pass prepends each vertex to
`finished` as it finishes (last-finished vertex first in the list) — which
the code does — AND that the second pass takes its DFS roots from that
list in finished order, latest-finished first.  On the graph with edge
1 → 2 the first pass produces `finished = [1, 2]` (vertex 1 finished
last), so under the claim the first root of the second pass would be 1;
but `vertices.pop()` takes from the END of the array, so the actual root
trace is [2] — the earliest-finished vertex was used first, contradicting
the claim (and Kosaraju's algorithm, which the `unshift` was meant to
serve). -/
theorem second_pass_root_order_bug :
    ((getSCCs exGraph2).map fun r => (r.finished, r.roots)) = some ([1, 2], [2]) ∧
      ([1, 2] : List Int).head? = some 1 ∧ ((2 : Int) ≠ 1) := by
  decide

/-! ## Claim C4: addEdge validation and the closure invariant -/

/-- Claim C4, counterexample part: the claim asserts that in every graph
reachable through the public operations, every ID in a `following` list is
a key of the graph.  But `addEdge` pushes `to` onto `from.following`
BEFORE looking up `to`, and the JS exception does not roll that back: after
`addVertex(1)` and the failed `addEdge(1, 2)`, vertex 1's following list
is [2] while 2 is not a key. -/
theorem addEdge_partial_mutation_cex :
    (addEdge exGraph1 1 2).1 = true ∧
      ((getVertex (addEdge exGraph1 1 2).2 1).map CapNode.neighbors) = some [2] ∧
      (2 : Int) ∉ keysList (addEdge exGraph1 1 2).2 := by
  decide

/-! ## Claim C5: removeEdge on a missing edge removes the last entry -/

/-- Claim C5: the claim states that when `to` does not occur in
`from.following`, `removeEdge(from, to)` signals only a diagnostic and
removes nothing.  In fact `removeNeighbor` logs the diagnostic and then
still calls `splice(-1, 1)`, which removes the LAST element: on the graph
where 1 follows [2, 3], `removeEdge(1, 9)` does not fail but leaves
1 following [2] — entry 3 was removed although 9 was never present.  The
first-occurrence positive case the claim also mentions does hold
(`removeEdge(1, 2)` leaves [3]), and followers are untouched. -/
theorem removeEdge_missing_removes_last_bug :
    ((getVertex exGraphFan 1).map CapNode.neighbors) = some [2, 3] ∧
      (9 : Int) ∉ ([2, 3] : List Int) ∧
      (removeEdge exGraphFan 1 9).1 = false ∧
      ((getVertex (removeEdge exGraphFan 1 9).2 1).map CapNode.neighbors) = some [2] ∧
      ((getVertex (removeEdge exGraphFan 1 2).2 1).map CapNode.neighbors) = some [3] ∧
      ((getVertex (removeEdge exGraphFan 1 9).2 2).map CapNode.followers) = some [1] := by
  decide

/-! ## Claim C8, counterexample: addVertex resets the observed flag -/

unseal List.merge List.mergeSort in
/-- Claim C8, counterexample part: the claim opens with "no operation ever
flips a vertex's isTrendSetter flag from true to false".  On the triangle
1 → 2 → 3 → 1, `identifyTrendSetters` flags vertex 2; the public operation
`addVertex(2)` then silently replaces that vertex with a fresh unflagged
one, so the observed flag of vertex 2 goes from true to false. -/
theorem addVertex_resets_flag_cex :
    ((identifyTrendSetters gTriangle).map fun g =>
        (((getVertex g 2).map CapNode.isTrendSetter).getD false,
         ((getVertex (addVertex g 2) 2).map CapNode.isTrendSetter).getD true)) =
      some (true, false) := by
  decide

end SNG

namespace SNG

/-! ## Claim C7: the shareVideo saturation gate -/

/-- The early-abort scan equals a test on the total count of viewed
followers: since the running count only grows along the list, it exceeds
the cap at some point iff the full count exceeds it. -/
theorem exceedsCapScan_eq (viewed : List Int) (cap : Nat) (fs : List Int) :
    ∀ k, k ≤ cap →
      exceedsCapScan viewed cap fs k =
        decide (cap < k + (fs.filter (fun f => f ∈ viewed)).length) := by
  induction fs with
  | nil =>
    intro k hk
    rw [show exceedsCapScan viewed cap [] k = false from rfl]
    symm
    rw [decide_eq_false_iff_not, List.filter_nil]
    simp only [List.length_nil, Nat.add_zero]
    omega
  | cons f rest ih =>
    intro k hk
    rw [show exceedsCapScan viewed cap (f :: rest) k =
        (if f ∈ viewed then
          (if cap < k + 1 then true else exceedsCapScan viewed cap rest (k + 1))
        else exceedsCapScan viewed cap rest k) from rfl]
    by_cases hf : f ∈ viewed
    · rw [if_pos hf]
      have hflen : ((f :: rest).filter (fun f => f ∈ viewed)).length =
          (rest.filter (fun f => f ∈ viewed)).length + 1 := by
        simp [List.filter_cons, hf]
      rw [hflen]
      by_cases hcap : cap < k + 1
      · rw [if_pos hcap]
        symm
        rw [decide_eq_true_eq]
        omega
      · rw [if_neg hcap, ih (k + 1) (by omega)]
        exact decide_eq_decide.mpr (by omega)
    · rw [if_neg hf]
      have hflen : ((f :: rest).filter (fun f => f ∈ viewed)).length =
          (rest.filter (fun f => f ∈ viewed)).length := by
        simp [List.filter_cons, hf]
      rw [hflen, ih k hk]

/-- The running count over some prefix exceeds the cap iff the count over
the whole list does. -/
theorem exceeds_prefix_iff (viewed : List Int) (F : List Int) (cap : Nat) :
    (∃ i, cap < ((F.take i).filter (fun f => f ∈ viewed)).length) ↔
      cap < (F.filter (fun f => f ∈ viewed)).length := by
  constructor
  · rintro ⟨i, hi⟩
    exact lt_of_lt_of_le hi
      (List.Sublist.length_le (List.Sublist.filter _ (List.take_sublist i F)))
  · intro h
    exact ⟨F.length, by simpa using h⟩

/-- Queue membership after one enqueue step. -/
theorem mem_enqueueStep_fst (st : List Int × List Int) (f x : Int) :
    x ∈ (enqueueStep st f).1 ↔ x ∈ st.1 ∨ x = f := by
  by_cases h : f ∈ st.1 <;> simp only [enqueueStep, h, if_pos, if_neg, not_false_iff] <;>
    constructor
  · exact Or.inl
  · rintro (hx | rfl)
    · exact hx
    · exact h
  · intro hx
    rcases List.mem_append.mp hx with hx | hx
    · exact Or.inl hx
    · exact Or.inr (List.mem_singleton.mp hx)
  · rintro (hx | rfl)
    · exact List.mem_append.mpr (Or.inl hx)
    · exact List.mem_append.mpr (Or.inr (List.mem_singleton.mpr rfl))

/-- Viewed-set membership after one enqueue step. -/
theorem mem_enqueueStep_snd (st : List Int × List Int) (f x : Int) :
    x ∈ (enqueueStep st f).2 ↔ x ∈ st.2 ∨ x = f := by
  by_cases h : f ∈ st.2 <;> simp only [enqueueStep, h, if_pos, if_neg, not_false_iff] <;>
    constructor
  · exact Or.inl
  · rintro (hx | rfl)
    · exact hx
    · exact h
  · intro hx
    rcases List.mem_append.mp hx with hx | hx
    · exact Or.inl hx
    · exact Or.inr (List.mem_singleton.mp hx)
  · rintro (hx | rfl)
    · exact List.mem_append.mpr (Or.inl hx)
    · exact List.mem_append.mpr (Or.inr (List.mem_singleton.mpr rfl))

/-- Membership characterisation of the final enqueue fold of `shareVideo`:
the queue ends up holding exactly its old members plus the followers, and
the viewed set likewise. -/
theorem enqueue_foldl_mem (fs : List Int) :
    ∀ (tv vw : List Int) (x : Int),
      (x ∈ (fs.foldl enqueueStep (tv, vw)).1 ↔ x ∈ tv ∨ x ∈ fs) ∧
      (x ∈ (fs.foldl enqueueStep (tv, vw)).2 ↔ x ∈ vw ∨ x ∈ fs) := by
  induction fs with
  | nil => intro tv vw x; simp
  | cons f rest ih =>
    intro tv vw x
    simp only [List.foldl_cons]
    have h1 := (ih (enqueueStep (tv, vw) f).1 (enqueueStep (tv, vw) f).2 x).1
    have h2 := (ih (enqueueStep (tv, vw) f).1 (enqueueStep (tv, vw) f).2 x).2
    constructor
    · rw [h1, mem_enqueueStep_fst]
      simp only [List.mem_cons]
      tauto
    · rw [h2, mem_enqueueStep_snd]
      simp only [List.mem_cons]
      tauto

end SNG

namespace SNG

/-- Claim C7: for a trend-setter node with follower list F of length n and
cap = ceil(0.2 × n) (`calculatePercent n 1 5`): if, scanning F in order,
the running count of followers already in the viewed set (which includes
the node itself, just added) ever exceeds the cap, then no followers at
all are enqueued in that call — the queue is returned unchanged;
otherwise, and always for non-trend-setters, every follower not already
in the queue is enqueued (final queue membership = old members plus
followers) and every follower is marked viewed. -/
theorem shareVideo_gate_spec (g : CapGraph) (nodeID : Int) (toVisit viewed : List Int)
    (node : CapNode) (h : getVertex g nodeID = some node) :
    (node.isTrendSetter = true →
      (∃ i, calculatePercent node.followers.length 1 5 <
          ((node.followers.take i).filter (fun f => f ∈ addViewed nodeID viewed)).length) →
      shareVideo g nodeID toVisit viewed = some (toVisit, addViewed nodeID viewed)) ∧
    ((node.isTrendSetter = true →
        ∀ i, ((node.followers.take i).filter (fun f => f ∈ addViewed nodeID viewed)).length ≤
          calculatePercent node.followers.length 1 5) →
      ∃ tv2 vw2, shareVideo g nodeID toVisit viewed = some (tv2, vw2) ∧
        (∀ x, x ∈ tv2 ↔ x ∈ toVisit ∨ x ∈ node.followers) ∧
        (∀ x, x ∈ vw2 ↔ x ∈ addViewed nodeID viewed ∨ x ∈ node.followers)) := by
  have hunfold : shareVideo g nodeID toVisit viewed =
      (if node.isTrendSetter &&
          exceedsCapScan (addViewed nodeID viewed)
            (calculatePercent node.followers.length 1 5) node.followers 0 then
        some (toVisit, addViewed nodeID viewed)
      else
        some (node.followers.foldl enqueueStep (toVisit, addViewed nodeID viewed))) := by
    rw [shareVideo, h]
  have hscan := exceedsCapScan_eq (addViewed nodeID viewed)
    (calculatePercent node.followers.length 1 5) node.followers 0 (Nat.zero_le _)
  constructor
  · intro hts hex
    rw [hunfold, hts]
    have htot := (exceeds_prefix_iff (addViewed nodeID viewed) node.followers
      (calculatePercent node.followers.length 1 5)).mp hex
    have : exceedsCapScan (addViewed nodeID viewed)
        (calculatePercent node.followers.length 1 5) node.followers 0 = true := by
      rw [hscan]
      simpa using htot
    rw [this]
    rfl
  · intro hno
    have hfalse : (node.isTrendSetter &&
        exceedsCapScan (addViewed nodeID viewed)
          (calculatePercent node.followers.length 1 5) node.followers 0) = false := by
      cases hts : node.isTrendSetter with
      | false => rfl
      | true =>
        have htot : ¬ calculatePercent node.followers.length 1 5 <
            (node.followers.filter (fun f => f ∈ addViewed nodeID viewed)).length := by
          intro hlt
          have hex := (exceeds_prefix_iff (addViewed nodeID viewed) node.followers
            (calculatePercent node.followers.length 1 5)).mpr hlt
          rcases hex with ⟨i, hi⟩
          exact absurd hi (Nat.not_lt.mpr (hno hts i))
        rw [hscan]
        simp [htot]
    rw [hunfold, hfalse, if_neg (by simp)]
    refine ⟨_, _, rfl, ?_, ?_⟩
    · intro x
      exact (enqueue_foldl_mem node.followers toVisit (addViewed nodeID viewed) x).1
    · intro x
      exact (enqueue_foldl_mem node.followers toVisit (addViewed nodeID viewed) x).2

/-- Witness for claim C7 at concrete inputs: on `gGate`, trend-setter 1
with followers [2, 3] and viewed set [2, 3] has cap ceil(0.2 × 2) = 1 and
the running count 2 exceeds it, so the queue is unchanged; on
`exGraphFan`, the non-trend-setter 2 has its follower 1 enqueued and
viewed. -/
theorem shareVideo_gate_spec_witness :
    (shareVideo gGate 1 [] [2, 3] = some ([], addViewed 1 [2, 3])) ∧
    (∃ tv2 vw2, shareVideo exGraphFan 2 [] [] = some (tv2, vw2) ∧
      (∀ x, x ∈ tv2 ↔ x ∈ ([] : List Int) ∨
        x ∈ ({ name := 2, neighbors := [], followers := [1],
               isTrendSetter := false } : CapNode).followers) ∧
      (∀ x, x ∈ vw2 ↔ x ∈ addViewed 2 [] ∨
        x ∈ ({ name := 2, neighbors := [], followers := [1],
               isTrendSetter := false } : CapNode).followers)) := by
  constructor
  · exact (shareVideo_gate_spec gGate 1 [] [2, 3]
      { name := 1, neighbors := [], followers := [2, 3], isTrendSetter := true }
      (by decide)).1 rfl ⟨2, by decide⟩
  · exact (shareVideo_gate_spec exGraphFan 2 [] []
      { name := 2, neighbors := [], followers := [1], isTrendSetter := false }
      (by decide)).2 (fun hts => absurd hts (by decide))

end SNG

namespace SNG

/-! ## Claims C9 and C10: the viral-sharing loops -/

/-- A key of the map always resolves through `getVertex`. -/
theorem getVertex_some_of_mem_keys {g : CapGraph} {k : Int} (h : k ∈ keysList g) :
    ∃ node, getVertex g k = some node := by
  unfold keysList at h
  rcases List.mem_map.mp h with ⟨p, hp, hker⟩
  have : (g.listMap.find? (fun p => p.1 == k)).isSome := by
    rw [List.find?_isSome]
    exact ⟨p, hp, by simp [hker]⟩
  rcases Option.isSome_iff_exists.mp this with ⟨q, hq⟩
  exact ⟨q.2, by rw [getVertex, hq]; rfl⟩

/-- A successful `getVertex` exposes an entry of the map. -/
theorem mem_listMap_of_getVertex {g : CapGraph} {k : Int} {node : CapNode}
    (h : getVertex g k = some node) : (k, node) ∈ g.listMap := by
  unfold getVertex at h
  rcases Option.map_eq_some'.mp h with ⟨p, hfind, hsnd⟩
  have hmem := List.mem_of_find?_eq_some hfind
  have hkey : p.1 = k := by
    have := List.find?_some hfind
    simpa using this
  have : p = (k, node) := by
    cases p
    simp only [Prod.mk.injEq]
    exact ⟨hkey, hsnd⟩
  rwa [this] at hmem

/-- Under well-formedness, a node's followers are keys. -/
theorem followers_sub_keys {g : CapGraph} {k : Int} {node : CapNode} (hWF : WF g)
    (h : getVertex g k = some node) : ∀ f ∈ node.followers, f ∈ keysList g := by
  intro f hf
  exact ((hWF.2 (k, node) (mem_listMap_of_getVertex h)).2.2) f hf

/-- The enqueue fold grows the queue by at most one entry per follower. -/
theorem enqueue_foldl_len (fs : List Int) :
    ∀ (tv vw : List Int), ((fs.foldl enqueueStep (tv, vw)).1).length ≤ tv.length + fs.length := by
  induction fs with
  | nil => intro tv vw; simp
  | cons f rest ih =>
    intro tv vw
    simp only [List.foldl_cons]
    have h := ih (enqueueStep (tv, vw) f).1 (enqueueStep (tv, vw) f).2
    have hstep : (enqueueStep (tv, vw) f).1.length ≤ tv.length + 1 := by
      by_cases hm : f ∈ tv <;> simp [enqueueStep, hm]
    calc ((rest.foldl enqueueStep (enqueueStep (tv, vw) f)).1).length
        ≤ (enqueueStep (tv, vw) f).1.length + rest.length := h
      _ ≤ tv.length + 1 + rest.length := by omega
      _ = tv.length + (rest.length + 1) := by omega
      _ = tv.length + (f :: rest).length := by simp

/-- `shareVideo` on a present vertex succeeds; the new queue is bounded by
the old queue plus the follower count, and every queued entry is an old
entry or a follower. -/
theorem shareVideo_spec_len {g : CapGraph} {id0 : Int} {node : CapNode}
    (h : getVertex g id0 = some node) (tv vw : List Int) :
    ∃ tv2 vw2, shareVideo g id0 tv vw = some (tv2, vw2) ∧
      tv2.length ≤ tv.length + node.followers.length ∧
      (∀ x ∈ tv2, x ∈ tv ∨ x ∈ node.followers) := by
  have hunfold : shareVideo g id0 tv vw =
      (if node.isTrendSetter &&
          exceedsCapScan (addViewed id0 vw)
            (calculatePercent node.followers.length 1 5) node.followers 0 then
        some (tv, addViewed id0 vw)
      else
        some (node.followers.foldl enqueueStep (tv, addViewed id0 vw))) := by
    rw [shareVideo, h]
  by_cases hgate : (node.isTrendSetter &&
      exceedsCapScan (addViewed id0 vw)
        (calculatePercent node.followers.length 1 5) node.followers 0) = true
  · rw [hunfold, if_pos hgate]
    exact ⟨tv, addViewed id0 vw, rfl, by omega, fun x hx => Or.inl hx⟩
  · rw [hunfold, if_neg hgate]
    refine ⟨(node.followers.foldl enqueueStep (tv, addViewed id0 vw)).1,
      (node.followers.foldl enqueueStep (tv, addViewed id0 vw)).2, rfl, ?_, ?_⟩
    · exact enqueue_foldl_len node.followers tv (addViewed id0 vw)
    · intro x hx
      exact (enqueue_foldl_mem node.followers tv (addViewed id0 vw) x).1.mp hx

/-- `addVertices` succeeds whenever every listed node is a key of the
source graph. -/
theorem addVertices_some (g : CapGraph) :
    ∀ (nodes : List Int) (sub : CapGraph), (∀ x ∈ nodes, x ∈ keysList g) →
      ∃ sub2, addVertices g nodes sub = some sub2 := by
  intro nodes
  induction nodes with
  | nil => intro sub _; exact ⟨sub, rfl⟩
  | cons nodeID rest ih =>
    intro sub hsub
    rw [addVertices]
    by_cases hm : nodeID ∈ getVertexIDs sub
    · rw [if_pos hm]
      exact ih _ (fun x hx => hsub x (List.mem_cons_of_mem _ hx))
    · rw [if_neg hm]
      rcases getVertex_some_of_mem_keys (hsub nodeID (List.mem_cons_self _ _)) with ⟨node, hnode⟩
      rw [hnode]
      exact ih _ (fun x hx => hsub x (List.mem_cons_of_mem _ hx))

/-- Newly visiting a vertex removes exactly its weight from the unvisited
pool. -/
theorem unvisitedWeight_append {g : CapGraph} {visited : List Int} {nodeID : Int}
    (hnd : (keysList g).Nodup) (hk : nodeID ∈ keysList g) (hnv : nodeID ∉ visited) :
    unvisitedWeight g (visited ++ [nodeID]) + (followersLenOf g nodeID + 1) =
      unvisitedWeight g visited := by
  unfold unvisitedWeight
  have hpred : ∀ k : Int, (k ∉ visited ++ [nodeID]) ↔ ((k ∉ visited) ∧ ¬ k = nodeID) := by
    intro k
    simp [List.mem_append, not_or]
  have hfilter : (keysList g).filter (fun k => k ∉ visited ++ [nodeID]) =
      ((keysList g).filter (fun k => k ∉ visited)).filter (fun k => ¬ k = nodeID) := by
    rw [List.filter_filter]
    apply List.filter_congr
    intro k _
    rw [show (decide ¬k = nodeID && decide (k ∉ visited)) = decide ((k ∉ visited) ∧ ¬ k = nodeID)
      by simp [Bool.and_comm]]
    exact decide_eq_decide.mpr (hpred k)
  rw [hfilter]
  set l := (keysList g).filter (fun k => k ∉ visited) with hl
  have hmem : nodeID ∈ l := by
    rw [hl]
    exact List.mem_filter.mpr ⟨hk, by simpa using hnv⟩
  have hlnd : l.Nodup := hnd.filter _
  have herase : l.filter (fun k => ¬ k = nodeID) = l.erase nodeID := by
    rw [List.Nodup.erase_eq_filter hlnd]
    apply List.filter_congr
    intro k _
    simp only [bne, decide_not]
    rw [Bool.not_inj_iff]
    exact decide_eq_decide.mpr (by constructor <;> (intro hh; omega))
  rw [herase]
  have hperm : l.Perm (nodeID :: l.erase nodeID) := List.perm_cons_erase hmem
  have := hperm.map (fun k => followersLenOf g k + 1)
  have hsum := List.Perm.sum_eq this
  simp only [List.map_cons, List.sum_cons] at hsum
  omega

end SNG

namespace SNG

/-- One `startViralSharing` iteration succeeds on a well-formed graph,
keeps the queue and visited set inside the key set, strictly decreases
the termination measure, and extends the visited set and ghost trace
together: unchanged for an already-visited head, both extended by the
head otherwise. -/
theorem viralStep_spec {g : CapGraph} (hWF : WF g) {nodeID : Int} {rest : List Int}
    {st : ViralSt}
    (hkey : nodeID ∈ keysList g)
    (hrest : ∀ x ∈ rest, x ∈ keysList g)
    (hvis : ∀ x ∈ st.visited, x ∈ keysList g) :
    ∃ st2, viralStep g nodeID rest st = some st2 ∧
      (∀ x ∈ st2.toVisit, x ∈ keysList g) ∧
      (∀ x ∈ st2.visited, x ∈ keysList g) ∧
      st2.toVisit.length + unvisitedWeight g st2.visited <
        (rest.length + 1) + unvisitedWeight g st.visited ∧
      ((nodeID ∈ st.visited ∧ st2.visited = st.visited ∧ st2.shareCalls = st.shareCalls) ∨
       (nodeID ∉ st.visited ∧ st2.visited = st.visited ++ [nodeID] ∧
        st2.shareCalls = st.shareCalls ++ [nodeID])) := by
  by_cases hv : nodeID ∈ st.visited
  · rcases addVertices_some g st.visited st.subGraph hvis with ⟨sub, hsub⟩
    have hstep : viralStep g nodeID rest st =
        some
          (if shouldContinueGenerating st.n 10 st.prevLen (getVertexIDs sub).length then
            { st with toVisit := rest, subGraph := sub,
                      prevLen := (getVertexIDs sub).length, n := st.n + 1,
                      emissions := st.emissions ++ [(st.n, getVertexIDs sub)] }
          else { st with toVisit := rest, subGraph := sub }) := by
      rw [viralStep]
      simp only [if_pos hv, hsub]
    split at hstep
    · exact ⟨_, hstep, hrest, hvis, by simp, Or.inl ⟨hv, rfl, rfl⟩⟩
    · exact ⟨_, hstep, hrest, hvis, by simp, Or.inl ⟨hv, rfl, rfl⟩⟩
  · rcases getVertex_some_of_mem_keys hkey with ⟨node, hnode⟩
    rcases shareVideo_spec_len hnode rest st.alreadyViewed with ⟨tv2, vw2, hsv, hlen, hmem⟩
    have hvis2 : ∀ x ∈ st.visited ++ [nodeID], x ∈ keysList g := by
      intro x hx
      rcases List.mem_append.mp hx with hx | hx
      · exact hvis x hx
      · rw [List.mem_singleton.mp hx]; exact hkey
    rcases addVertices_some g (st.visited ++ [nodeID]) st.subGraph hvis2 with ⟨sub, hsub⟩
    have hstep : viralStep g nodeID rest st =
        some
          (if shouldContinueGenerating st.n 10 st.prevLen (getVertexIDs sub).length then
            { st with toVisit := tv2, alreadyViewed := vw2,
                      visited := st.visited ++ [nodeID],
                      shareCalls := st.shareCalls ++ [nodeID],
                      subGraph := sub,
                      prevLen := (getVertexIDs sub).length, n := st.n + 1,
                      emissions := st.emissions ++ [(st.n, getVertexIDs sub)] }
          else { st with toVisit := tv2, alreadyViewed := vw2,
                         visited := st.visited ++ [nodeID],
                         shareCalls := st.shareCalls ++ [nodeID],
                         subGraph := sub }) := by
      rw [viralStep]
      simp only [if_neg hv, hsv, hsub]
    have hflw : followersLenOf g nodeID = node.followers.length := by
      simp [followersLenOf, hnode]
    have hw := unvisitedWeight_append hWF.1 hkey hv
    have htv2 : ∀ x ∈ tv2, x ∈ keysList g := by
      intro x hx
      rcases hmem x hx with hx | hx
      · exact hrest x hx
      · exact followers_sub_keys hWF hnode x hx
    split at hstep
    · exact ⟨_, hstep, htv2, hvis2, by simp; omega, Or.inr ⟨hv, rfl, rfl⟩⟩
    · exact ⟨_, hstep, htv2, hvis2, by simp; omega, Or.inr ⟨hv, rfl, rfl⟩⟩

end SNG

namespace SNG

/-- Within one iteration, the visited set and the ghost trace of
`shareVideo` invocations move together: both unchanged for an
already-visited head, both extended by the head otherwise. -/
theorem viralStep_trace {g : CapGraph} {nodeID : Int} {rest : List Int} {st st2 : ViralSt}
    (h : viralStep g nodeID rest st = some st2) :
    (st2.visited = st.visited ∧ st2.shareCalls = st.shareCalls) ∨
    (nodeID ∉ st.visited ∧ st2.visited = st.visited ++ [nodeID] ∧
     st2.shareCalls = st.shareCalls ++ [nodeID]) := by
  rw [viralStep] at h
  by_cases hv : nodeID ∈ st.visited
  · simp only [if_pos hv] at h
    cases hsub : addVertices g st.visited st.subGraph with
    | none => rw [hsub] at h; exact absurd h (by simp)
    | some sub =>
      rw [hsub] at h
      simp only [Option.some.injEq] at h
      left
      split at h <;> rw [← h]
      · exact ⟨rfl, rfl⟩
      · exact ⟨rfl, rfl⟩
  · simp only [if_neg hv] at h
    cases hsv : shareVideo g nodeID rest st.alreadyViewed with
    | none => rw [hsv] at h; exact absurd h (by simp)
    | some p =>
      obtain ⟨tv, vw⟩ := p
      rw [hsv] at h
      dsimp only at h
      cases hsub : addVertices g (st.visited ++ [nodeID]) st.subGraph with
      | none => rw [hsub] at h; exact absurd h (by simp)
      | some sub =>
        rw [hsub] at h
        simp only [Option.some.injEq] at h
        right
        split at h <;> rw [← h]
        · exact ⟨hv, rfl, rfl⟩
        · exact ⟨hv, rfl, rfl⟩

/-- The `startViralSharing` loop finishes (returns some) whenever the fuel
exceeds the termination measure. -/
theorem viralLoop_terminates_aux {g : CapGraph} (hWF : WF g) :
    ∀ (fuel : Nat) (st : ViralSt), viralMeasure g st < fuel →
      (∀ x ∈ st.toVisit, x ∈ keysList g) → (∀ x ∈ st.visited, x ∈ keysList g) →
      ∃ st2, viralLoop g fuel st = some st2 := by
  intro fuel
  induction fuel with
  | zero => intro st hm _ _; exact absurd hm (Nat.not_lt_zero _)
  | succ fuel ih =>
    intro st hm htv hvis
    rw [viralLoop]
    cases htvl : st.toVisit with
    | nil => exact ⟨st, rfl⟩
    | cons nodeID rest =>
      have hkey : nodeID ∈ keysList g := htv nodeID (by rw [htvl]; exact List.mem_cons_self _ _)
      have hrest : ∀ x ∈ rest, x ∈ keysList g :=
        fun x hx => htv x (by rw [htvl]; exact List.mem_cons_of_mem _ hx)
      rcases viralStep_spec hWF hkey hrest hvis with ⟨st2, hstep, htv2, hvis2, hmeas, _⟩
      dsimp only
      rw [hstep]
      have hms : st.toVisit.length = rest.length + 1 := by rw [htvl]; simp
      have hm2 : viralMeasure g st2 < fuel := by
        unfold viralMeasure at hm ⊢
        omega
      exact ih st2 hm2 htv2 hvis2

/-- Along any successful run of the loop, the invocation trace equals the
visited list and stays duplicate-free. -/
theorem viralLoop_trace_aux {g : CapGraph} :
    ∀ (fuel : Nat) (st st' : ViralSt), viralLoop g fuel st = some st' →
      st.shareCalls = st.visited → st.visited.Nodup →
      st'.shareCalls = st'.visited ∧ st'.visited.Nodup := by
  intro fuel
  induction fuel with
  | zero => intro st st' h; rw [viralLoop] at h; exact absurd h (by simp)
  | succ fuel ih =>
    intro st st' h heq hnd
    rw [viralLoop] at h
    cases htvl : st.toVisit with
    | nil =>
      rw [htvl] at h
      simp only [Option.some.injEq] at h
      rw [← h]
      exact ⟨heq, hnd⟩
    | cons nodeID rest =>
      rw [htvl] at h
      dsimp only at h
      cases hstep : viralStep g nodeID rest st with
      | none => rw [hstep] at h; exact absurd h (by simp)
      | some st2 =>
        rw [hstep] at h
        rcases viralStep_trace hstep with ⟨hv2, hs2⟩ | ⟨hnv, hv2, hs2⟩
        · exact ih st2 st' h (by rw [hs2, hv2, heq]) (hv2 ▸ hnd)
        · refine ih st2 st' h (by rw [hs2, hv2, heq]) ?_
          rw [hv2]
          rw [List.nodup_append]
          exact ⟨hnd, List.nodup_singleton _, by
            intro x hx hx2
            rw [List.mem_singleton.mp hx2] at hx
            exact hnv hx⟩

end SNG

namespace SNG

/-- The depth-carrying enqueue fold grows the queue by at most one entry
per follower. -/
theorem enqueueD_foldl_len (d : Nat) (fs : List Int) :
    ∀ (tv : List (Int × Nat)) (vw : List Int),
      ((fs.foldl (enqueueStepDepth d) (tv, vw)).1).length ≤ tv.length + fs.length := by
  induction fs with
  | nil => intro tv vw; simp
  | cons f rest ih =>
    intro tv vw
    simp only [List.foldl_cons]
    have h := ih (enqueueStepDepth d (tv, vw) f).1 (enqueueStepDepth d (tv, vw) f).2
    have hstep : (enqueueStepDepth d (tv, vw) f).1.length ≤ tv.length + 1 := by
      by_cases hm : tv.any (fun item => item.1 == f) = true <;>
        simp [enqueueStepDepth, hm]
    calc ((rest.foldl (enqueueStepDepth d) (enqueueStepDepth d (tv, vw) f)).1).length
        ≤ (enqueueStepDepth d (tv, vw) f).1.length + rest.length := h
      _ ≤ tv.length + 1 + rest.length := by omega
      _ = tv.length + (f :: rest).length := by simp; omega

/-- Every entry of the depth-carrying queue after the fold is an old entry
or a follower. -/
theorem enqueueD_foldl_mem (d : Nat) (fs : List Int) :
    ∀ (tv : List (Int × Nat)) (vw : List Int) (x : Int × Nat),
      x ∈ (fs.foldl (enqueueStepDepth d) (tv, vw)).1 → x ∈ tv ∨ x.1 ∈ fs := by
  induction fs with
  | nil => intro tv vw x hx; exact Or.inl (by simpa using hx)
  | cons f rest ih =>
    intro tv vw x hx
    simp only [List.foldl_cons] at hx
    rcases ih (enqueueStepDepth d (tv, vw) f).1 (enqueueStepDepth d (tv, vw) f).2 x hx with
      hx1 | hx1
    · by_cases hm : tv.any (fun item => item.1 == f) = true
      · simp only [enqueueStepDepth, hm, if_pos] at hx1
        exact Or.inl hx1
      · simp only [enqueueStepDepth, hm, if_neg, Bool.not_eq_true, not_false_iff] at hx1
        rcases List.mem_append.mp hx1 with hx2 | hx2
        · exact Or.inl hx2
        · right
          rw [List.mem_singleton.mp hx2]
          exact List.mem_cons_self _ _
    · exact Or.inr (List.mem_cons_of_mem _ hx1)

/-- `shareVideoWithDepth` on a present vertex succeeds, with the same
queue bound and membership property as `shareVideo`. -/
theorem shareVideoWithDepth_spec_len {g : CapGraph} {id0 : Int} {node : CapNode}
    (h : getVertex g id0 = some node) (tv : List (Int × Nat)) (vw : List Int) (d : Nat) :
    ∃ tv2 vw2, shareVideoWithDepth g id0 tv vw d = some (tv2, vw2) ∧
      tv2.length ≤ tv.length + node.followers.length ∧
      (∀ x ∈ tv2, x ∈ tv ∨ x.1 ∈ node.followers) := by
  have hunfold : shareVideoWithDepth g id0 tv vw d =
      (if node.isTrendSetter &&
          exceedsCapScan (addViewed id0 vw)
            (calculatePercent node.followers.length 1 5) node.followers 0 then
        some (tv, addViewed id0 vw)
      else
        some (node.followers.foldl (enqueueStepDepth d) (tv, addViewed id0 vw))) := by
    rw [shareVideoWithDepth, h]
  by_cases hgate : (node.isTrendSetter &&
      exceedsCapScan (addViewed id0 vw)
        (calculatePercent node.followers.length 1 5) node.followers 0) = true
  · rw [hunfold, if_pos hgate]
    exact ⟨tv, addViewed id0 vw, rfl, by omega, fun x hx => Or.inl hx⟩
  · rw [hunfold, if_neg hgate]
    refine ⟨(node.followers.foldl (enqueueStepDepth d) (tv, addViewed id0 vw)).1,
      (node.followers.foldl (enqueueStepDepth d) (tv, addViewed id0 vw)).2, rfl, ?_, ?_⟩
    · exact enqueueD_foldl_len d node.followers tv (addViewed id0 vw)
    · intro x hx
      exact enqueueD_foldl_mem d node.followers tv (addViewed id0 vw) x hx

/-- One `startViralSharingWithLimit` iteration succeeds on a well-formed
graph, keeps queue node IDs and the visited set inside the key set, and
strictly decreases the termination measure. -/
theorem viralStepLimit_spec {g : CapGraph} (hWF : WF g) {nodeID : Int} {depth : Nat}
    {rest : List (Int × Nat)} {st : ViralSt2}
    (hkey : nodeID ∈ keysList g)
    (hrest : ∀ x ∈ rest, x.1 ∈ keysList g)
    (hvis : ∀ x ∈ st.visited, x ∈ keysList g) :
    ∃ st2, viralStepLimit g nodeID depth rest st = some st2 ∧
      (∀ x ∈ st2.toVisit, x.1 ∈ keysList g) ∧
      (∀ x ∈ st2.visited, x ∈ keysList g) ∧
      st2.toVisit.length + unvisitedWeight g st2.visited <
        (rest.length + 1) + unvisitedWeight g st.visited := by
  by_cases hv : nodeID ∈ st.visited
  · rcases addVertices_some g st.visited st.subGraph hvis with ⟨sub, hsub⟩
    have hstep : viralStepLimit g nodeID depth rest st =
        some
          (if shouldContinueGenerating st.n 10 st.prevLen (getVertexIDs sub).length then
            { st with toVisit := rest, subGraph := sub,
                      prevLen := (getVertexIDs sub).length, n := st.n + 1,
                      emissions := st.emissions ++ [(st.n, (getVertexIDs sub).length)] }
          else { st with toVisit := rest, subGraph := sub }) := by
      rw [viralStepLimit]
      simp only [if_pos hv, hsub]
    split at hstep
    · exact ⟨_, hstep, hrest, hvis, by simp⟩
    · exact ⟨_, hstep, hrest, hvis, by simp⟩
  · rcases getVertex_some_of_mem_keys hkey with ⟨node, hnode⟩
    rcases shareVideoWithDepth_spec_len hnode rest st.alreadyViewed depth with
      ⟨tv2, vw2, hsv, hlen, hmem⟩
    have hvis2 : ∀ x ∈ st.visited ++ [nodeID], x ∈ keysList g := by
      intro x hx
      rcases List.mem_append.mp hx with hx | hx
      · exact hvis x hx
      · rw [List.mem_singleton.mp hx]; exact hkey
    rcases addVertices_some g (st.visited ++ [nodeID]) st.subGraph hvis2 with ⟨sub, hsub⟩
    have hstep : viralStepLimit g nodeID depth rest st =
        some
          (if shouldContinueGenerating st.n 10 st.prevLen (getVertexIDs sub).length then
            { st with toVisit := tv2, alreadyViewed := vw2,
                      visited := st.visited ++ [nodeID],
                      shareCalls := st.shareCalls ++ [nodeID],
                      subGraph := sub,
                      prevLen := (getVertexIDs sub).length, n := st.n + 1,
                      emissions := st.emissions ++ [(st.n, (getVertexIDs sub).length)] }
          else { st with toVisit := tv2, alreadyViewed := vw2,
                         visited := st.visited ++ [nodeID],
                         shareCalls := st.shareCalls ++ [nodeID],
                         subGraph := sub }) := by
      rw [viralStepLimit]
      simp only [if_neg hv, hsv, hsub]
    have hflw : followersLenOf g nodeID = node.followers.length := by
      simp [followersLenOf, hnode]
    have hw := unvisitedWeight_append hWF.1 hkey hv
    have htv2 : ∀ x ∈ tv2, x.1 ∈ keysList g := by
      intro x hx
      rcases hmem x hx with hx | hx
      · exact hrest x hx
      · exact followers_sub_keys hWF hnode x.1 hx
    split at hstep
    · exact ⟨_, hstep, htv2, hvis2, by simp; omega⟩
    · exact ⟨_, hstep, htv2, hvis2, by simp; omega⟩

/-- The `startViralSharingWithLimit` loop finishes whenever the fuel
exceeds the termination measure: the queue empties, a deeper item is
discarded, or the 100000-visited safety valve fires. -/
theorem viralLoopLimit_terminates_aux {g : CapGraph} (hWF : WF g) (maxDepth : Nat) :
    ∀ (fuel : Nat) (st : ViralSt2), viralMeasure2 g st < fuel →
      (∀ x ∈ st.toVisit, x.1 ∈ keysList g) → (∀ x ∈ st.visited, x ∈ keysList g) →
      ∃ st2, viralLoopLimit g maxDepth fuel st = some st2 := by
  intro fuel
  induction fuel with
  | zero => intro st hm _ _; exact absurd hm (Nat.not_lt_zero _)
  | succ fuel ih =>
    intro st hm htv hvis
    rw [viralLoopLimit]
    cases htvl : st.toVisit with
    | nil => exact ⟨st, rfl⟩
    | cons p rest =>
      obtain ⟨nodeID, depth⟩ := p
      dsimp only
      have hms : st.toVisit.length = rest.length + 1 := by rw [htvl]; simp
      by_cases hd : maxDepth < depth
      · rw [if_pos hd]
        have hm2 : viralMeasure2 g { st with toVisit := rest } < fuel := by
          unfold viralMeasure2 at hm ⊢
          simp only at *
          omega
        exact ih { st with toVisit := rest } hm2
          (fun x hx => htv x (by rw [htvl]; exact List.mem_cons_of_mem _ hx)) hvis
      · rw [if_neg hd]
        have hkey : nodeID ∈ keysList g := by
          have := htv (nodeID, depth) (by rw [htvl]; exact List.mem_cons_self _ _)
          simpa using this
        have hrest : ∀ x ∈ rest, x.1 ∈ keysList g :=
          fun x hx => htv x (by rw [htvl]; exact List.mem_cons_of_mem _ hx)
        rcases viralStepLimit_spec hWF hkey hrest hvis with ⟨st2, hstep, htv2, hvis2, hmeas⟩
        rw [hstep]
        dsimp only
        by_cases hcut : 100000 < st2.visited.length
        · rw [if_pos hcut]
          exact ⟨st2, rfl⟩
        · rw [if_neg hcut]
          have hm2 : viralMeasure2 g st2 < fuel := by
            unfold viralMeasure2 at hm ⊢
            omega
          exact ih st2 hm2 htv2 hvis2

end SNG

namespace SNG

/-- Claim C9: for every well-formed finite graph and every start node
present in the graph, both startViralSharing and the depth-bounded
startViralSharingWithLimit terminate: some fuel (number of loop
iterations) suffices for the loop to end by itself — via the queue
emptying, the depth bound discarding deeper items, or the 100000-visited
safety cutoff — rather than running forever. -/
theorem viralSharing_terminates (g : CapGraph) (s : Int) (hWF : WF g)
    (hs : s ∈ keysList g) :
    (∃ fuel st', startViralSharing g s fuel = some st') ∧
    (∀ maxDepth, ∃ fuel st', startViralSharingWithLimit g s maxDepth fuel = some st') := by
  rcases getVertex_some_of_mem_keys hs with ⟨startNode, hsn⟩
  have hvis0 : ∀ x ∈ ([] : List Int), x ∈ keysList g :=
    fun x hx => absurd hx (List.not_mem_nil x)
  constructor
  · let st0 : ViralSt :=
      { toVisit := s :: startNode.followers, visited := [], alreadyViewed := [s],
        subGraph := emptyGraph, n := 1, prevLen := 0, emissions := [], shareCalls := [] }
    have htv : ∀ x ∈ st0.toVisit, x ∈ keysList g := by
      intro x hx
      rcases List.mem_cons.mp hx with rfl | hx
      · exact hs
      · exact followers_sub_keys hWF hsn x hx
    rcases viralLoop_terminates_aux hWF (viralMeasure g st0 + 1) st0
      (Nat.lt_succ_self _) htv hvis0 with ⟨st', hst⟩
    exact ⟨_, st', by rw [startViralSharing, hsn]; exact hst⟩
  · intro maxDepth
    let st0 : ViralSt2 :=
      { toVisit := (s, 0) :: startNode.followers.map (fun f => (f, 1)), visited := [],
        alreadyViewed := [s], subGraph := emptyGraph, n := 1, prevLen := 0,
        emissions := [], shareCalls := [] }
    have htv : ∀ x ∈ st0.toVisit, x.1 ∈ keysList g := by
      intro x hx
      rcases List.mem_cons.mp hx with rfl | hx
      · exact hs
      · rcases List.mem_map.mp hx with ⟨f, hf, rfl⟩
        exact followers_sub_keys hWF hsn f hf
    rcases viralLoopLimit_terminates_aux hWF maxDepth (viralMeasure2 g st0 + 1) st0
      (Nat.lt_succ_self _) htv hvis0 with ⟨st', hst⟩
    exact ⟨_, st', by rw [startViralSharingWithLimit, hsn]; exact hst⟩

/-- Witness for claim C9: the triangle graph with start node 2. -/
theorem viralSharing_terminates_witness :
    (∃ fuel st', startViralSharing gTriangle 2 fuel = some st') ∧
    (∀ maxDepth, ∃ fuel st', startViralSharingWithLimit gTriangle 2 maxDepth fuel = some st') :=
  viralSharing_terminates gTriangle 2 (by decide) (by decide)

/-- Claim C10: within one startViralSharing run the sharing rule is
evaluated at most once per node — the ghost trace of shareVideo
invocations is duplicate-free, and it equals the visited list, so a node
dequeued again after being visited (which can happen, since the
already-queued check looks only at the current queue) is never passed to
shareVideo again. -/
theorem shareVideo_once_per_node (g : CapGraph) (s : Int) (fuel : Nat) (st' : ViralSt)
    (h : startViralSharing g s fuel = some st') :
    st'.shareCalls.Nodup ∧ st'.shareCalls = st'.visited := by
  rw [startViralSharing] at h
  cases hg : getVertex g s with
  | none => rw [hg] at h; exact absurd h (by simp)
  | some startNode =>
    rw [hg] at h
    have htr := viralLoop_trace_aux fuel _ st' h rfl List.nodup_nil
    exact ⟨htr.1 ▸ htr.2, htr.1⟩

/-- Witness for claim C10: a full run on the triangle graph from node 2. -/
theorem shareVideo_once_per_node_witness :
    ∃ st', startViralSharing gTriangle 2 20 = some st' ∧ st'.shareCalls.Nodup ∧
      st'.shareCalls = st'.visited := by
  cases hrun : startViralSharing gTriangle 2 20 with
  | none => exact absurd hrun (by decide)
  | some st' =>
    rcases shareVideo_once_per_node gTriangle 2 20 st' hrun with ⟨h1, h2⟩
    exact ⟨st', rfl, h1, h2⟩

end SNG

namespace SNG

/-! ## Claim C4: addEdge validation and the closure invariant -/

/-- `updateNode` does not change the key list. -/
theorem keysList_updateNode (g : CapGraph) (k : Int) (f : CapNode → CapNode) :
    keysList (updateNode g k f) = keysList g := by
  unfold keysList updateNode
  rw [List.map_map]
  apply List.map_congr_left
  intro p _
  by_cases hp : p.1 = k <;> simp [hp]

/-- The key list after `addVertex`: unchanged for an existing key,
appended for a new one. -/
theorem keysList_addVertex (g : CapGraph) (n : Int) :
    keysList (addVertex g n) =
      if n ∈ keysList g then keysList g else keysList g ++ [n] := by
  unfold keysList addVertex mapSet
  by_cases hn : n ∈ g.listMap.map Prod.fst
  · rw [if_pos hn, if_pos hn, List.map_map]
    apply List.map_congr_left
    intro p _
    by_cases hp : p.1 = n <;> simp [hp]
  · rw [if_neg hn, if_neg hn]
    simp

/-- Key membership after `addVertex`. -/
theorem mem_keysList_addVertex (g : CapGraph) (n x : Int) :
    x ∈ keysList (addVertex g n) ↔ x ∈ keysList g ∨ x = n := by
  rw [keysList_addVertex]
  by_cases hn : n ∈ keysList g
  · rw [if_pos hn]
    constructor
    · exact Or.inl
    · rintro (hx | rfl)
      · exact hx
      · exact hn
  · rw [if_neg hn]
    simp

/-- Entry shape after `updateNode`. -/
theorem mem_listMap_updateNode {g : CapGraph} {k : Int} {f : CapNode → CapNode} {q : Int × CapNode}
    (h : q ∈ (updateNode g k f).listMap) :
    ∃ p ∈ g.listMap, q = (if p.1 = k then (p.1, f p.2) else p) := by
  unfold updateNode at h
  rcases List.mem_map.mp h with ⟨p, hp, hpe⟩
  exact ⟨p, hp, hpe.symm⟩

/-- Entry shape after `addVertex`. -/
theorem mem_listMap_addVertex {g : CapGraph} {n : Int} {q : Int × CapNode}
    (h : q ∈ (addVertex g n).listMap) :
    q = (n, CapNode.mkNew n) ∨ q ∈ g.listMap := by
  unfold addVertex mapSet at h
  by_cases hn : n ∈ g.listMap.map Prod.fst
  · rw [if_pos hn] at h
    rcases List.mem_map.mp h with ⟨p, hp, hpe⟩
    by_cases hpk : p.1 = n
    · simp only [hpk, if_pos] at hpe
      exact Or.inl hpe.symm
    · simp only [hpk, if_neg, not_false_iff] at hpe
      exact Or.inr (hpe ▸ hp)
  · rw [if_neg hn] at h
    rcases List.mem_append.mp h with hq | hq
    · exact Or.inr hq
    · exact Or.inl (List.mem_singleton.mp hq)

/-- A missing key means `getVertex` fails. -/
theorem getVertex_none_of_not_mem {g : CapGraph} {k : Int} (h : k ∉ keysList g) :
    getVertex g k = none := by
  cases hg : getVertex g k with
  | none => rfl
  | some node =>
    exact absurd (List.mem_map_of_mem Prod.fst (mem_listMap_of_getVertex hg)) h

/-- A successful `getVertex` witnesses key membership. -/
theorem mem_keys_of_getVertex {g : CapGraph} {k : Int} {node : CapNode}
    (h : getVertex g k = some node) : k ∈ keysList g :=
  List.mem_map_of_mem Prod.fst (mem_listMap_of_getVertex h)

/-- `addVertex` preserves the closure invariant. -/
theorem closedRefs_addVertex {g : CapGraph} (h : ClosedRefs g) (n : Int) :
    ClosedRefs (addVertex g n) := by
  intro q hq
  have hkeys : ∀ x, x ∈ keysList g → x ∈ keysList (addVertex g n) :=
    fun x hx => (mem_keysList_addVertex g n x).mpr (Or.inl hx)
  rcases mem_listMap_addVertex hq with hq1 | hq1
  · subst hq1
    exact ⟨fun x hx => absurd hx (List.not_mem_nil x),
      fun x hx => absurd hx (List.not_mem_nil x)⟩
  · exact ⟨fun x hx => hkeys x ((h q hq1).1 x hx), fun x hx => hkeys x ((h q hq1).2 x hx)⟩

/-- A successful `addEdge` preserves the closure invariant. -/
theorem closedRefs_addEdge {g : CapGraph} (h : ClosedRefs g) {f t : Int}
    (hok : (addEdge g f t).1 = false) : ClosedRefs (addEdge g f t).2 := by
  cases hf : getVertex g f with
  | none =>
    simp only [addEdge, hf] at hok
    exact Bool.noConfusion hok
  | some fnode =>
    cases ht : getVertex (updateNode g f
        (fun nd => { nd with neighbors := nd.neighbors ++ [t] })) t with
    | none =>
      simp only [addEdge, hf, ht] at hok
      exact Bool.noConfusion hok
    | some tnode =>
      have h2 : (addEdge g f t).2 =
          updateNode (updateNode g f (fun nd => { nd with neighbors := nd.neighbors ++ [t] })) t
            (fun nd => { nd with followers := nd.followers ++ [f] }) := by
        simp only [addEdge, hf, ht]
      rw [h2]
      have hfk : f ∈ keysList g := mem_keys_of_getVertex hf
      have htk : t ∈ keysList g := by
        have := mem_keys_of_getVertex ht
        rwa [keysList_updateNode] at this
      intro q hq
      rw [keysList_updateNode, keysList_updateNode]
      rcases mem_listMap_updateNode hq with ⟨p1, hp1, hq1⟩
      rcases mem_listMap_updateNode hp1 with ⟨p0, hp0, hq0⟩
      have hbase := h p0 hp0
      constructor
      · intro x hx
        rw [hq1] at hx
        have hx1 : x ∈ p1.2.neighbors := by
          by_cases h1 : p1.1 = t
          · rw [if_pos h1] at hx
            simpa using hx
          · rw [if_neg h1] at hx
            exact hx
        rw [hq0] at hx1
        by_cases h0 : p0.1 = f
        · rw [if_pos h0] at hx1
          simp only [List.mem_append, List.mem_singleton] at hx1
          rcases hx1 with hx2 | hx2
          · exact hbase.1 x hx2
          · rw [hx2]
            exact htk
        · rw [if_neg h0] at hx1
          exact hbase.1 x hx1
      · intro x hx
        rw [hq1] at hx
        by_cases h1 : p1.1 = t
        · rw [if_pos h1] at hx
          simp only [List.mem_append, List.mem_singleton] at hx
          rcases hx with hx2 | hx2
          · rw [hq0] at hx2
            have hx3 : x ∈ p0.2.followers := by
              by_cases h0 : p0.1 = f
              · rw [if_pos h0] at hx2
                simpa using hx2
              · rw [if_neg h0] at hx2
                exact hx2
            exact hbase.2 x hx3
          · rw [hx2]
            exact hfk
        · rw [if_neg h1] at hx
          rw [hq0] at hx
          have hx3 : x ∈ p0.2.followers := by
            by_cases h0 : p0.1 = f
            · rw [if_pos h0] at hx
              simpa using hx
            · rw [if_neg h0] at hx
              exact hx
          exact hbase.2 x hx3

/-- `removeEdge` preserves the closure invariant (it only ever removes a
neighbor entry — the correct one or, on the missing-edge bug path, the
last one). -/
theorem closedRefs_removeEdge {g : CapGraph} (h : ClosedRefs g) (f t : Int) :
    ClosedRefs (removeEdge g f t).2 := by
  cases hf : getVertex g f with
  | none =>
    have h2 : (removeEdge g f t).2 = g := by simp only [removeEdge, hf]
    rw [h2]
    exact h
  | some fnode =>
    have h2 : (removeEdge g f t).2 =
        updateNode g f (fun nd => { nd with neighbors := removeNeighbor nd.neighbors t }) := by
      simp only [removeEdge, hf]
    rw [h2]
    intro q hq
    rw [keysList_updateNode]
    rcases mem_listMap_updateNode hq with ⟨p, hp, hqe⟩
    have hbase := h p hp
    by_cases h0 : p.1 = f
    · rw [if_pos h0] at hqe
      subst hqe
      constructor
      · intro x hx
        simp only at hx
        have hsub : List.Sublist (removeNeighbor p.2.neighbors t) p.2.neighbors := by
          unfold removeNeighbor jsSplice1
          exact List.eraseIdx_sublist _ _
        exact hbase.1 x (hsub.mem hx)
      · intro x hx
        exact hbase.2 x hx
    · rw [if_neg h0] at hqe
      subst hqe
      exact hbase

end SNG

namespace SNG

/-- Claim C4 (amended): addEdge fails (UnknownVertex) exactly when an
endpoint is missing from the key set; and every graph reachable from the
empty graph through SUCCESSFUL public operations (addVertex, addEdge,
removeEdge) satisfies the closure invariant — every ID in any following
or followers list is a key.  (A FAILED addEdge can break the invariant:
see the counterexample theorem for this claim.) -/
theorem addEdge_error_and_closure :
    (∀ (g : CapGraph) (f t : Int),
      (addEdge g f t).1 = true ↔ (f ∉ keysList g ∨ t ∉ keysList g)) ∧
    (∀ g : CapGraph, OpReach g → ClosedRefs g) := by
  constructor
  · intro g f t
    cases hf : getVertex g f with
    | none =>
      have hfk : f ∉ keysList g := by
        intro hmem
        rcases getVertex_some_of_mem_keys hmem with ⟨nd, hnd⟩
        rw [hnd] at hf
        exact Option.noConfusion hf
      simp only [addEdge, hf]
      exact ⟨fun _ => Or.inl hfk, fun _ => trivial⟩
    | some fnode =>
      have hfk : f ∈ keysList g := mem_keys_of_getVertex hf
      cases ht : getVertex (updateNode g f
          (fun nd => { nd with neighbors := nd.neighbors ++ [t] })) t with
      | none =>
        have htk : t ∉ keysList g := by
          intro hmem
          have hmem2 : t ∈ keysList (updateNode g f
              (fun nd => { nd with neighbors := nd.neighbors ++ [t] })) := by
            rw [keysList_updateNode]
            exact hmem
          rcases getVertex_some_of_mem_keys hmem2 with ⟨nd, hnd⟩
          rw [hnd] at ht
          exact Option.noConfusion ht
        simp only [addEdge, hf, ht]
        exact ⟨fun _ => Or.inr htk, fun _ => trivial⟩
      | some tnode =>
        have htk : t ∈ keysList g := by
          have := mem_keys_of_getVertex ht
          rwa [keysList_updateNode] at this
        simp only [addEdge, hf, ht]
        constructor
        · intro hfalse
          exact Bool.noConfusion hfalse
        · rintro (hc | hc)
          · exact absurd hfk hc
          · exact absurd htk hc
  · intro g hreach
    induction hreach with
    | empty => intro q hq; exact absurd hq (List.not_mem_nil q)
    | addV g n _ ih => exact closedRefs_addVertex ih n
    | addE g f t _ hok ih => exact closedRefs_addEdge ih hok
    | remE g f t _ ih => exact closedRefs_removeEdge ih f t

/-- Witness for claim C4 at concrete inputs: the failing `addEdge(1, 2)`
on the one-vertex graph, and the closure invariant on the successfully
built graph `exGraph2`. -/
theorem addEdge_error_and_closure_witness :
    ((addEdge exGraph1 1 2).1 = true ↔
      ((1 : Int) ∉ keysList exGraph1 ∨ (2 : Int) ∉ keysList exGraph1)) ∧
    ClosedRefs exGraph2 :=
  ⟨addEdge_error_and_closure.1 exGraph1 1 2,
   addEdge_error_and_closure.2 exGraph2
     (OpReach.addE (addVertex (addVertex emptyGraph 1) 2) 1 2
       (OpReach.addV _ 2 (OpReach.addV _ 1 OpReach.empty)) (by decide))⟩

end SNG

namespace SNG

/-! ## Claim C3: getSCCs partitions the vertex set -/

/-- Filtering with a stronger predicate gives a shorter list. -/
theorem length_filter_mono {α : Type} {p q : α → Bool} (h : ∀ x, p x = true → q x = true) :
    ∀ l : List α, (l.filter p).length ≤ (l.filter q).length := by
  intro l
  induction l with
  | nil => simp
  | cons a l ih =>
    by_cases hp : p a = true
    · rw [List.filter_cons_of_pos hp, List.filter_cons_of_pos (h a hp)]
      simpa using ih
    · rw [List.filter_cons_of_neg (by simpa using hp)]
      by_cases hq : q a = true
      · rw [List.filter_cons_of_pos hq]
        simp only [List.length_cons]
        omega
      · rw [List.filter_cons_of_neg (by simpa using hq)]
        exact ih

/-- Newly visiting a key decrements the unvisited count by exactly one. -/
theorem unvisitedCount_append {g : CapGraph} {visited : List Int} {v : Int}
    (hnd : (keysList g).Nodup) (hk : v ∈ keysList g) (hnv : v ∉ visited) :
    unvisitedCount g (visited ++ [v]) + 1 = unvisitedCount g visited := by
  unfold unvisitedCount
  have hfilter : (keysList g).filter (fun k => k ∉ visited ++ [v]) =
      ((keysList g).filter (fun k => k ∉ visited)).filter (fun k => ¬ k = v) := by
    rw [List.filter_filter]
    apply List.filter_congr
    intro k _
    rw [show (decide ¬k = v && decide (k ∉ visited)) = decide ((k ∉ visited) ∧ ¬ k = v)
      by simp [Bool.and_comm]]
    apply decide_eq_decide.mpr
    simp [List.mem_append, not_or]
  rw [hfilter]
  set l := (keysList g).filter (fun k => k ∉ visited) with hl
  have hmem : v ∈ l := by
    rw [hl]
    exact List.mem_filter.mpr ⟨hk, by simpa using hnv⟩
  have hlnd : l.Nodup := hnd.filter _
  have herase : l.filter (fun k => ¬ k = v) = l.erase v := by
    rw [List.Nodup.erase_eq_filter hlnd]
    apply List.filter_congr
    intro k _
    simp only [bne, decide_not]
    rw [Bool.not_inj_iff]
    exact decide_eq_decide.mpr (by constructor <;> (intro hh; omega))
  rw [herase, List.length_erase_of_mem hmem]
  have hpos : 0 < l.length := List.length_pos_of_mem hmem
  omega

/-- Growing the visited set cannot increase the unvisited count. -/
theorem unvisitedCount_mono {g : CapGraph} {v1 v2 : List Int}
    (h : ∀ x ∈ v1, x ∈ v2) : unvisitedCount g v2 ≤ unvisitedCount g v1 := by
  unfold unvisitedCount
  apply length_filter_mono
  intro x hx
  simp only [decide_eq_true_eq] at hx ⊢
  intro hx1
  exact hx (h x hx1)

/-- An unvisited key keeps the unvisited count positive. -/
theorem unvisitedCount_pos {g : CapGraph} {visited : List Int} {v : Int}
    (hk : v ∈ keysList g) (hnv : v ∉ visited) : 1 ≤ unvisitedCount g visited := by
  unfold unvisitedCount
  have : v ∈ (keysList g).filter (fun k => k ∉ visited) :=
    List.mem_filter.mpr ⟨hk, by simpa using hnv⟩
  exact List.length_pos_of_mem this

/-- With zero unvisited keys, every key is visited. -/
theorem all_visited_of_count_zero {g : CapGraph} {visited : List Int}
    (h : unvisitedCount g visited = 0) : ∀ x ∈ keysList g, x ∈ visited := by
  intro x hx
  by_contra hnx
  have := unvisitedCount_pos hx hnx
  omega

/-- The joint specification of `dfsVisit` and its neighbor loop: with
fuel covering the unvisited keys, a visit from an unvisited key succeeds
and collects a duplicate-free batch of new vertices containing the root,
appended to `visited` in discovery order, appended to `sccNodeIDs` in
exit order and prepended (reversed) to `finished`. -/
theorem dfs_spec (g : CapGraph) (hnd : (keysList g).Nodup) (hcl : NbrClosed g) :
    ∀ fuel : Nat,
      (∀ (v : Int) (st : DfsSt), v ∈ keysList g → v ∉ st.visited →
        unvisitedCount g st.visited ≤ fuel → DfsVisitPost g fuel v st) ∧
      (∀ (ns : List Int) (st : DfsSt), (∀ n ∈ ns, n ∈ keysList g) →
        unvisitedCount g st.visited ≤ fuel → DfsListPost g fuel ns st) := by
  intro fuel
  induction fuel with
  | zero =>
    constructor
    · intro v st hv hnv hcount
      exact absurd hcount (by have := unvisitedCount_pos hv hnv; omega)
    · intro ns st hns hcount
      have hall : ∀ x ∈ keysList g, x ∈ st.visited :=
        all_visited_of_count_zero (by omega)
      refine ⟨[], [], ?_, List.Perm.refl _, by simp, List.nodup_nil⟩
      have hskip : dfsList (dfsVisit g 0) ns st = some st := by
        induction ns with
        | nil => rfl
        | cons n rest ihn =>
          rw [dfsList, if_pos (hall n (hns n (List.mem_cons_self _ _)))]
          exact ihn (fun x hx => hns x (List.mem_cons_of_mem _ hx))
      rw [hskip]
      simp
  | succ fuel ih =>
    have hP : ∀ (v : Int) (st : DfsSt), v ∈ keysList g → v ∉ st.visited →
        unvisitedCount g st.visited ≤ fuel + 1 → DfsVisitPost g (fuel + 1) v st := by
      intro v st hv hnv hcount
      rcases getVertex_some_of_mem_keys hv with ⟨node, hnode⟩
      have hnbrs : ∀ n ∈ node.neighbors, n ∈ keysList g :=
        hcl (v, node) (mem_listMap_of_getVertex hnode)
      have hcount2 : unvisitedCount g (st.visited ++ [v]) ≤ fuel := by
        have := unvisitedCount_append hnd hv hnv
        omega
      rcases ih.2 node.neighbors ⟨st.visited ++ [v], st.finished, st.scc⟩ hnbrs hcount2 with
        ⟨nv2, l2, hrun, hperm, hprop, hnd2⟩
      refine ⟨v :: nv2, l2 ++ [v], ?_, ?_, List.mem_cons_self _ _, ?_, ?_⟩
      · rw [dfsVisit, hnode]
        dsimp only
        rw [show ({ st with visited := st.visited ++ [v] } : DfsSt) =
          ⟨st.visited ++ [v], st.finished, st.scc⟩ from rfl, hrun]
        simp only [Option.some.injEq, DfsSt.mk.injEq]
        refine ⟨by simp, by simp [List.reverse_append], by simp⟩
      · exact (List.perm_append_singleton v l2).trans (List.Perm.cons v hperm)
      · intro x hx
        rcases List.mem_cons.mp hx with rfl | hx
        · exact ⟨hv, hnv⟩
        · have := hprop x hx
          simp only [List.mem_append, List.mem_singleton, not_or] at this
          exact ⟨this.1, this.2.1⟩
      · rw [List.nodup_cons]
        constructor
        · intro hvnv2
          have := (hprop v hvnv2).2
          simp at this
        · exact hnd2
    have hQ : ∀ (ns : List Int) (st : DfsSt), (∀ n ∈ ns, n ∈ keysList g) →
        unvisitedCount g st.visited ≤ fuel + 1 → DfsListPost g (fuel + 1) ns st := by
      intro ns
      induction ns with
      | nil =>
        intro st _ _
        refine ⟨[], [], ?_, List.Perm.refl _, by simp, List.nodup_nil⟩
        rw [show dfsList (dfsVisit g (fuel + 1)) [] st = some st from rfl]
        simp
      | cons n rest ihn =>
        intro st hns hcount
        by_cases hnmem : n ∈ st.visited
        · rcases ihn st (fun x hx => hns x (List.mem_cons_of_mem _ hx)) hcount with
            ⟨nv, l, hrun, hperm, hprop, hnodup⟩
          refine ⟨nv, l, ?_, hperm, hprop, hnodup⟩
          rw [dfsList, if_pos hnmem]
          exact hrun
        · rcases hP n st (hns n (List.mem_cons_self _ _)) hnmem hcount with
            ⟨nv1, l1, hrun1, hperm1, hmem1, hprop1, hnodup1⟩
          have hgrow : ∀ x ∈ st.visited, x ∈ st.visited ++ nv1 :=
            fun x hx => List.mem_append.mpr (Or.inl hx)
          have hcount2 : unvisitedCount g (st.visited ++ nv1) ≤ fuel + 1 :=
            le_trans (unvisitedCount_mono hgrow) hcount
          rcases ihn ⟨st.visited ++ nv1, l1.reverse ++ st.finished, st.scc ++ l1⟩
            (fun x hx => hns x (List.mem_cons_of_mem _ hx)) hcount2 with
            ⟨nv2, l2, hrun2, hperm2, hprop2, hnodup2⟩
          refine ⟨nv1 ++ nv2, l1 ++ l2, ?_, ?_, ?_, ?_⟩
          · rw [dfsList, if_neg hnmem]
            rw [show dfsVisit g (fuel + 1) n st =
              some ⟨st.visited ++ nv1, l1.reverse ++ st.finished, st.scc ++ l1⟩ from hrun1]
            dsimp only
            rw [hrun2]
            simp only [Option.some.injEq, DfsSt.mk.injEq]
            refine ⟨by simp, by simp [List.reverse_append], by simp⟩
          · exact hperm1.append hperm2
          · intro x hx
            rcases List.mem_append.mp hx with hx | hx
            · exact hprop1 x hx
            · have := hprop2 x hx
              simp only [List.mem_append, not_or] at this
              exact ⟨this.1, this.2.1⟩
          · rw [List.nodup_append]
            refine ⟨hnodup1, hnodup2, ?_⟩
            intro x hx1 hx2
            have := (hprop2 x hx2).2
            simp only [List.mem_append, not_or] at this
            exact this.2 hx1
    exact ⟨hP, hQ⟩

end SNG

namespace SNG

/-- The first pass visits every vertex of its worklist: it returns a
`finished` list that is a permutation of a duplicate-free set of keys
covering the worklist and the previously visited vertices. -/
theorem dfsLoop_spec (g : CapGraph) (hnd : (keysList g).Nodup) (hcl : NbrClosed g)
    (fuel : Nat) :
    ∀ (worklist : List Int) (st : DfsSt),
      (∀ x ∈ worklist, x ∈ keysList g) →
      unvisitedCount g st.visited ≤ fuel →
      st.finished.Perm st.visited →
      st.visited.Nodup →
      (∀ x ∈ st.visited, x ∈ keysList g) →
      ∃ finished visitedF, dfsLoop g fuel worklist st = some finished ∧
        finished.Perm visitedF ∧ visitedF.Nodup ∧
        (∀ x ∈ visitedF, x ∈ keysList g) ∧
        (∀ x ∈ worklist, x ∈ visitedF) ∧ (∀ x ∈ st.visited, x ∈ visitedF) := by
  intro worklist
  induction worklist with
  | nil =>
    intro st _ _ hperm hnodup hsub
    exact ⟨st.finished, st.visited, rfl, hperm, hnodup, hsub,
      fun x hx => absurd hx (List.not_mem_nil x), fun x hx => hx⟩
  | cons v rest ih =>
    intro st hwk hcount hperm hnodup hsub
    by_cases hv : v ∈ st.visited
    · rw [dfsLoop, if_pos hv]
      rcases ih st (fun x hx => hwk x (List.mem_cons_of_mem _ hx)) hcount hperm hnodup hsub
        with ⟨fin, vf, hrun, h1, h2, h3, h4, h5⟩
      refine ⟨fin, vf, hrun, h1, h2, h3, ?_, h5⟩
      intro x hx
      rcases List.mem_cons.mp hx with rfl | hx
      · exact h5 x hv
      · exact h4 x hx
    · rw [dfsLoop, if_neg hv]
      rcases (dfs_spec g hnd hcl fuel).1 v st (hwk v (List.mem_cons_self _ _)) hv hcount with
        ⟨nv, l, hrun, hperm1, hmem1, hprop1, hnodup1⟩
      rw [show dfsVisit g fuel v st =
        some ⟨st.visited ++ nv, l.reverse ++ st.finished, st.scc ++ l⟩ from hrun]
      dsimp only
      have hperm2 : (l.reverse ++ st.finished).Perm (st.visited ++ nv) := by
        have h1 : (l.reverse ++ st.finished).Perm (nv ++ st.visited) :=
          List.Perm.append (l.reverse_perm.trans hperm1) hperm
        exact h1.trans (List.perm_append_comm)
      have hnodup2 : (st.visited ++ nv).Nodup := by
        rw [List.nodup_append]
        exact ⟨hnodup, hnodup1, fun x hx1 hx2 => (hprop1 x hx2).2 hx1⟩
      have hsub2 : ∀ x ∈ st.visited ++ nv, x ∈ keysList g := by
        intro x hx
        rcases List.mem_append.mp hx with hx | hx
        · exact hsub x hx
        · exact (hprop1 x hx).1
      have hcount2 : unvisitedCount g (st.visited ++ nv) ≤ fuel :=
        le_trans (unvisitedCount_mono (fun x hx => List.mem_append.mpr (Or.inl hx))) hcount
      rcases ih ⟨st.visited ++ nv, l.reverse ++ st.finished, st.scc ++ l⟩
        (fun x hx => hwk x (List.mem_cons_of_mem _ hx)) hcount2 hperm2 hnodup2 hsub2 with
        ⟨fin, vf, hrun2, h1, h2, h3, h4, h5⟩
      refine ⟨fin, vf, hrun2, h1, h2, h3, ?_, ?_⟩
      · intro x hx
        rcases List.mem_cons.mp hx with rfl | hx
        · exact h5 x (List.mem_append.mpr (Or.inr hmem1))
        · exact h4 x hx
      · intro x hx
        exact h5 x (List.mem_append.mpr (Or.inl hx))

end SNG

namespace SNG

/-- Duplicate-free keys survive `addVertex`. -/
theorem keysNodup_addVertex {g : CapGraph} (h : (keysList g).Nodup) (n : Int) :
    (keysList (addVertex g n)).Nodup := by
  rw [keysList_addVertex]
  split_ifs with hn
  · exact h
  · rw [List.nodup_append]
    exact ⟨h, List.nodup_singleton _, by
      intro x hx hx2
      rw [List.mem_singleton.mp hx2] at hx
      exact hn hx⟩

/-- Neighbor closure survives `addVertex`. -/
theorem nbrClosed_addVertex {g : CapGraph} (h : NbrClosed g) (n : Int) :
    NbrClosed (addVertex g n) := by
  intro q hq
  rcases mem_listMap_addVertex hq with hq1 | hq1
  · subst hq1
    intro x hx
    exact absurd hx (List.not_mem_nil x)
  · intro x hx
    exact (mem_keysList_addVertex g n x).mpr (Or.inl (h q hq1 x hx))

/-- Neighbor closure survives pushing an existing key onto a neighbor
list. -/
theorem nbrClosed_push {g : CapGraph} (h : NbrClosed g) {n v : Int} (hv : v ∈ keysList g) :
    NbrClosed (updateNode g n (fun nd => { nd with neighbors := nd.neighbors ++ [v] })) := by
  intro q hq
  rw [keysList_updateNode]
  rcases mem_listMap_updateNode hq with ⟨p, hp, hqe⟩
  by_cases h0 : p.1 = n
  · rw [if_pos h0] at hqe
    rw [hqe]
    intro x hx
    simp only [List.mem_append, List.mem_singleton] at hx
    rcases hx with hx | rfl
    · exact h p hp x hx
    · exact hv
  · rw [if_neg h0] at hqe
    rw [hqe]
    exact h p hp

/-- The inner `neighbors.forEach` of `transpose`: adds the missing
neighbor keys and pushes the source v, keeping duplicate-free keys and
neighbor closure. -/
theorem transpose_inner_spec (v : Int) :
    ∀ (ns : List Int) (tg : CapGraph),
      (keysList tg).Nodup → NbrClosed tg → v ∈ keysList tg →
      (keysList (ns.foldl (fun tg n =>
          updateNode (if n ∈ getVertexIDs tg then tg else addVertex tg n) n
            (fun nd => { nd with neighbors := nd.neighbors ++ [v] })) tg)).Nodup ∧
      NbrClosed (ns.foldl (fun tg n =>
          updateNode (if n ∈ getVertexIDs tg then tg else addVertex tg n) n
            (fun nd => { nd with neighbors := nd.neighbors ++ [v] })) tg) ∧
      v ∈ keysList (ns.foldl (fun tg n =>
          updateNode (if n ∈ getVertexIDs tg then tg else addVertex tg n) n
            (fun nd => { nd with neighbors := nd.neighbors ++ [v] })) tg) ∧
      (∀ x, x ∈ keysList (ns.foldl (fun tg n =>
          updateNode (if n ∈ getVertexIDs tg then tg else addVertex tg n) n
            (fun nd => { nd with neighbors := nd.neighbors ++ [v] })) tg) ↔
        x ∈ keysList tg ∨ x ∈ ns) := by
  intro ns
  induction ns with
  | nil =>
    intro tg h1 h2 h3
    exact ⟨h1, h2, h3, fun x => by simp⟩
  | cons n rest ih =>
    intro tg h1 h2 h3
    simp only [List.foldl_cons]
    have hg1 : (keysList (if n ∈ getVertexIDs tg then tg else addVertex tg n)).Nodup := by
      split_ifs with hn
      · exact h1
      · exact keysNodup_addVertex h1 n
    have hg2 : NbrClosed (if n ∈ getVertexIDs tg then tg else addVertex tg n) := by
      split_ifs with hn
      · exact h2
      · exact nbrClosed_addVertex h2 n
    have hg3 : ∀ x, x ∈ keysList (if n ∈ getVertexIDs tg then tg else addVertex tg n) ↔
        x ∈ keysList tg ∨ x = n := by
      intro x
      split_ifs with hn
      · constructor
        · exact Or.inl
        · rintro (hx | rfl)
          · exact hx
          · exact hn
      · exact mem_keysList_addVertex tg n x
    have hv2 : v ∈ keysList (if n ∈ getVertexIDs tg then tg else addVertex tg n) :=
      (hg3 v).mpr (Or.inl h3)
    have hu1 : (keysList (updateNode (if n ∈ getVertexIDs tg then tg else addVertex tg n) n
        (fun nd => { nd with neighbors := nd.neighbors ++ [v] }))).Nodup := by
      rw [keysList_updateNode]
      exact hg1
    have hu2 : NbrClosed (updateNode (if n ∈ getVertexIDs tg then tg else addVertex tg n) n
        (fun nd => { nd with neighbors := nd.neighbors ++ [v] })) :=
      nbrClosed_push hg2 hv2
    have hu3 : v ∈ keysList (updateNode (if n ∈ getVertexIDs tg then tg else addVertex tg n) n
        (fun nd => { nd with neighbors := nd.neighbors ++ [v] })) := by
      rw [keysList_updateNode]
      exact hv2
    rcases ih _ hu1 hu2 hu3 with ⟨k1, k2, k3, k4⟩
    refine ⟨k1, k2, k3, ?_⟩
    intro x
    rw [k4 x, keysList_updateNode, hg3 x]
    simp only [List.mem_cons]
    tauto

end SNG

namespace SNG

/-- The outer `vertices.forEach` of `transpose`, over a list of map
entries. -/
theorem transpose_outer_spec :
    ∀ (entries : List (Int × CapNode)) (tg : CapGraph),
      (keysList tg).Nodup → NbrClosed tg →
      (keysList (entries.foldl (fun tg p =>
          p.2.neighbors.foldl (fun tg n =>
            updateNode (if n ∈ getVertexIDs tg then tg else addVertex tg n) n
              (fun nd => { nd with neighbors := nd.neighbors ++ [p.1] }))
            (if p.1 ∈ getVertexIDs tg then tg else addVertex tg p.1)) tg)).Nodup ∧
      NbrClosed (entries.foldl (fun tg p =>
          p.2.neighbors.foldl (fun tg n =>
            updateNode (if n ∈ getVertexIDs tg then tg else addVertex tg n) n
              (fun nd => { nd with neighbors := nd.neighbors ++ [p.1] }))
            (if p.1 ∈ getVertexIDs tg then tg else addVertex tg p.1)) tg) ∧
      (∀ x, x ∈ keysList (entries.foldl (fun tg p =>
          p.2.neighbors.foldl (fun tg n =>
            updateNode (if n ∈ getVertexIDs tg then tg else addVertex tg n) n
              (fun nd => { nd with neighbors := nd.neighbors ++ [p.1] }))
            (if p.1 ∈ getVertexIDs tg then tg else addVertex tg p.1)) tg) ↔
        x ∈ keysList tg ∨ ∃ p ∈ entries, x = p.1 ∨ x ∈ p.2.neighbors) := by
  intro entries
  induction entries with
  | nil =>
    intro tg h1 h2
    exact ⟨h1, h2, fun x => by simp⟩
  | cons p rest ih =>
    intro tg h1 h2
    simp only [List.foldl_cons]
    have hg1 : (keysList (if p.1 ∈ getVertexIDs tg then tg else addVertex tg p.1)).Nodup := by
      split_ifs with hn
      · exact h1
      · exact keysNodup_addVertex h1 p.1
    have hg2 : NbrClosed (if p.1 ∈ getVertexIDs tg then tg else addVertex tg p.1) := by
      split_ifs with hn
      · exact h2
      · exact nbrClosed_addVertex h2 p.1
    have hg3 : ∀ x, x ∈ keysList (if p.1 ∈ getVertexIDs tg then tg else addVertex tg p.1) ↔
        x ∈ keysList tg ∨ x = p.1 := by
      intro x
      split_ifs with hn
      · constructor
        · exact Or.inl
        · rintro (hx | rfl)
          · exact hx
          · exact hn
      · exact mem_keysList_addVertex tg p.1 x
    have hv : p.1 ∈ keysList (if p.1 ∈ getVertexIDs tg then tg else addVertex tg p.1) :=
      (hg3 p.1).mpr (Or.inr rfl)
    rcases transpose_inner_spec p.1 p.2.neighbors
      (if p.1 ∈ getVertexIDs tg then tg else addVertex tg p.1) hg1 hg2 hv with
      ⟨k1, k2, k3, k4⟩
    rcases ih _ k1 k2 with ⟨m1, m2, m3⟩
    refine ⟨m1, m2, ?_⟩
    intro x
    rw [m3 x, k4 x, hg3 x]
    simp only [List.mem_cons]
    constructor
    · rintro (((hx | rfl) | hx) | ⟨q, hq, hxq⟩)
      · exact Or.inl hx
      · exact Or.inr ⟨p, Or.inl rfl, Or.inl rfl⟩
      · exact Or.inr ⟨p, Or.inl rfl, Or.inr hx⟩
      · exact Or.inr ⟨q, Or.inr hq, hxq⟩
    · rintro (hx | ⟨q, (rfl | hq), hxq⟩)
      · exact Or.inl (Or.inl (Or.inl hx))
      · rcases hxq with rfl | hxq
        · exact Or.inl (Or.inl (Or.inr rfl))
        · exact Or.inl (Or.inr hxq)
      · exact Or.inr ⟨q, hq, hxq⟩

/-- `transpose` of a neighbor-closed graph: duplicate-free keys, neighbor
closed, same key set as the source. -/
theorem transpose_spec (g : CapGraph) (hcl : NbrClosed g) :
    (keysList (transpose g)).Nodup ∧ NbrClosed (transpose g) ∧
    (∀ x, x ∈ keysList (transpose g) ↔ x ∈ keysList g) := by
  have ht : transpose g = g.listMap.foldl (fun tg p =>
      p.2.neighbors.foldl (fun tg n =>
        updateNode (if n ∈ getVertexIDs tg then tg else addVertex tg n) n
          (fun nd => { nd with neighbors := nd.neighbors ++ [p.1] }))
        (if p.1 ∈ getVertexIDs tg then tg else addVertex tg p.1)) emptyGraph := rfl
  have h0 : (keysList emptyGraph).Nodup := List.nodup_nil
  have h0b : NbrClosed emptyGraph := fun q hq => absurd hq (List.not_mem_nil q)
  rcases transpose_outer_spec g.listMap emptyGraph h0 h0b with ⟨m1, m2, m3⟩
  rw [ht]
  refine ⟨m1, m2, ?_⟩
  intro x
  rw [m3 x]
  constructor
  · rintro (hx | ⟨p, hp, (rfl | hx)⟩)
    · exact absurd hx (List.not_mem_nil x)
    · exact List.mem_map_of_mem Prod.fst hp
    · exact hcl p hp x hx
  · intro hx
    rcases List.mem_map.mp hx with ⟨p, hp, hpe⟩
    exact Or.inr ⟨p, hp, Or.inl hpe.symm⟩

end SNG

namespace SNG

/-- Materialising a component: succeeds whenever every batch member is a
key of the original graph, and the resulting vertex set is the
accumulator's keys plus the batch. -/
theorem buildComponent_spec (orig : CapGraph) (v : Int) :
    ∀ (batch : List Int) (acc : CapGraph),
      (∀ x ∈ batch, x ∈ keysList orig) →
      (keysList acc).Nodup →
      ∃ comp, buildComponent orig v batch acc = some comp ∧
        (keysList comp).Nodup ∧
        (∀ x, x ∈ keysList comp ↔ x ∈ keysList acc ∨ x ∈ batch) := by
  intro batch
  induction batch with
  | nil =>
    intro acc _ hnd
    exact ⟨acc, rfl, hnd, fun x => by simp⟩
  | cons nodeID rest ih =>
    intro acc hsub hnd
    rcases getVertex_some_of_mem_keys (hsub nodeID (List.mem_cons_self _ _)) with ⟨node, hnode⟩
    rw [buildComponent, hnode]
    have hnd2 : (keysList (updateNode (addVertex acc nodeID) nodeID
        (fun nd => { nd with neighbors := nd.neighbors ++ node.neighbors }))).Nodup := by
      rw [keysList_updateNode]
      exact keysNodup_addVertex hnd nodeID
    rcases ih (updateNode (addVertex acc nodeID) nodeID
        (fun nd => { nd with neighbors := nd.neighbors ++ node.neighbors }))
      (fun x hx => hsub x (List.mem_cons_of_mem _ hx)) hnd2 with ⟨comp, hrun, h1, h2⟩
    refine ⟨comp, hrun, h1, ?_⟩
    intro x
    rw [h2 x, keysList_updateNode, mem_keysList_addVertex]
    simp only [List.mem_cons]
    tauto

/-- Removing a freshly visited batch from the unvisited keys: the old
unvisited keys are, up to permutation, the batch plus the remaining
unvisited keys. -/
theorem filter_unvisited_perm {g : CapGraph} {visited nv : List Int}
    (hnd : (keysList g).Nodup) (hnv : nv.Nodup)
    (hprop : ∀ x ∈ nv, x ∈ keysList g ∧ x ∉ visited) :
    ((keysList g).filter (fun k => k ∉ visited)).Perm
      (nv ++ (keysList g).filter (fun k => k ∉ visited ++ nv)) := by
  have hnd1 : ((keysList g).filter (fun k => k ∉ visited)).Nodup := hnd.filter _
  have hnd2 : (nv ++ (keysList g).filter (fun k => k ∉ visited ++ nv)).Nodup := by
    rw [List.nodup_append]
    refine ⟨hnv, hnd.filter _, ?_⟩
    intro x hx1 hx2
    have := List.of_mem_filter hx2
    simp only [decide_eq_true_eq, List.mem_append, not_or] at this
    exact this.2 hx1
  rw [List.perm_ext_iff_of_nodup hnd1 hnd2]
  intro a
  simp only [List.mem_append, List.mem_filter, decide_eq_true_eq, List.mem_append, not_or]
  constructor
  · rintro ⟨hk, hnvis⟩
    by_cases ha : a ∈ nv
    · exact Or.inl ha
    · exact Or.inr ⟨hk, hnvis, ha⟩
  · rintro (ha | ⟨hk, hnvis, _⟩)
    · exact ⟨(hprop a ha).1, (hprop a ha).2⟩
    · exact ⟨hk, hnvis⟩

end SNG

namespace SNG

/-- The one-vertex constructor graph has exactly its vertex as key. -/
theorem keysList_mkGraph (v : Int) : keysList (mkGraph v) = [v] := rfl

/-- The second pass: each DFS root collects a batch over the transpose,
the batches are materialised as component graphs, and the new components'
key lists are, joined, a permutation of the not-yet-visited keys. -/
theorem dfsGraphList_spec (orig tg : CapGraph)
    (hnd2 : (keysList tg).Nodup) (hcl2 : NbrClosed tg)
    (horig : ∀ x ∈ keysList tg, x ∈ keysList orig) (fuel : Nat) :
    ∀ (iter : Nat) (worklist visited : List Int) (acc : List CapGraph) (roots : List Int),
      worklist.length < iter →
      (∀ x ∈ worklist, x ∈ keysList tg) →
      (∀ x ∈ visited, x ∈ keysList tg) →
      visited.Nodup →
      (∀ x ∈ worklist, x ∉ visited) →
      unvisitedCount tg visited ≤ fuel →
      (∀ k ∈ keysList tg, k ∈ worklist ∨ k ∈ visited) →
      ∃ newcomps newroots,
        dfsGraphList orig tg fuel iter worklist visited acc roots =
          some (acc ++ newcomps, roots ++ newroots) ∧
        ((newcomps.map keysList).join).Perm
          ((keysList tg).filter (fun k => k ∉ visited)) := by
  intro iter
  induction iter with
  | zero =>
    intro worklist visited acc roots hlen
    exact absurd hlen (Nat.not_lt_zero _)
  | succ iter ih =>
    intro worklist visited acc roots hlen hwk hvis hnd3 hdisj hcount hinv
    cases worklist with
    | nil =>
      refine ⟨[], [], by simp [dfsGraphList], ?_⟩
      have hfe : (keysList tg).filter (fun k => k ∉ visited) = [] := by
        rw [List.filter_eq_nil_iff]
        intro a ha
        have := hinv a ha
        simp only [List.not_mem_nil, false_or] at this
        simpa using this
      rw [hfe]
      simp
    | cons v rest =>
      have hvk : v ∈ keysList tg := hwk v (List.mem_cons_self _ _)
      have hvnv : v ∉ visited := hdisj v (List.mem_cons_self _ _)
      rcases (dfs_spec tg hnd2 hcl2 fuel).1 v ⟨visited, [], []⟩ hvk hvnv hcount with
        ⟨nv, l, hrun, hperm, hmem, hprop, hnodup⟩
      have hlmem : ∀ x, x ∈ l ↔ x ∈ nv := fun x => hperm.mem_iff
      have hlnd : l.Nodup := (List.Perm.nodup_iff hperm).mpr hnodup
      have hvl : v ∈ l := (hlmem v).mpr hmem
      have hlsub : ∀ x ∈ l, x ∈ keysList orig :=
        fun x hx => horig x (hprop x ((hlmem x).mp hx)).1
      rcases buildComponent_spec orig v l (mkGraph v) hlsub
        (by rw [keysList_mkGraph]; exact List.nodup_singleton _) with
        ⟨comp, hbc, hcompnd, hcompmem⟩
      have hcompl : ∀ x, x ∈ keysList comp ↔ x ∈ l := by
        intro x
        rw [hcompmem x, keysList_mkGraph]
        simp only [List.mem_singleton]
        constructor
        · rintro (rfl | hx)
          · exact hvl
          · exact hx
        · exact Or.inr
      have hcompperm : (keysList comp).Perm l :=
        (List.perm_ext_iff_of_nodup hcompnd hlnd).mpr hcompl
      -- invariants for the recursive call
      have hrest2len : (rest.filter (fun id => id ∉ l)).length < iter := by
        have h1 := List.length_filter_le (fun id => decide (id ∉ l)) rest
        simp only [List.length_cons] at hlen
        omega
      have hrest2wk : ∀ x ∈ rest.filter (fun id => id ∉ l), x ∈ keysList tg :=
        fun x hx => hwk x (List.mem_cons_of_mem _ (List.mem_of_mem_filter hx))
      have hvis2 : ∀ x ∈ visited ++ nv, x ∈ keysList tg := by
        intro x hx
        rcases List.mem_append.mp hx with hx | hx
        · exact hvis x hx
        · exact (hprop x hx).1
      have hnd4 : (visited ++ nv).Nodup := by
        rw [List.nodup_append]
        exact ⟨hnd3, hnodup, fun x hx1 hx2 => (hprop x hx2).2 hx1⟩
      have hdisj2 : ∀ x ∈ rest.filter (fun id => id ∉ l), x ∉ visited ++ nv := by
        intro x hx
        have hx1 := List.mem_of_mem_filter hx
        have hx2 := List.of_mem_filter hx
        simp only [decide_eq_true_eq] at hx2
        simp only [List.mem_append, not_or]
        exact ⟨hdisj x (List.mem_cons_of_mem _ hx1), fun hxnv => hx2 ((hlmem x).mpr hxnv)⟩
      have hcount2 : unvisitedCount tg (visited ++ nv) ≤ fuel :=
        le_trans (unvisitedCount_mono (fun x hx => List.mem_append.mpr (Or.inl hx))) hcount
      have hinv2 : ∀ k ∈ keysList tg, k ∈ rest.filter (fun id => id ∉ l) ∨ k ∈ visited ++ nv := by
        intro k hk
        rcases hinv k hk with hkw | hkv
        · rcases List.mem_cons.mp hkw with rfl | hkw
          · exact Or.inr (List.mem_append.mpr (Or.inr hmem))
          · by_cases hkl : k ∈ l
            · exact Or.inr (List.mem_append.mpr (Or.inr ((hlmem k).mp hkl)))
            · exact Or.inl (List.mem_filter.mpr ⟨hkw, by simpa using hkl⟩)
        · exact Or.inr (List.mem_append.mpr (Or.inl hkv))
      rcases ih (rest.filter (fun id => id ∉ l)) (visited ++ nv) (acc ++ [comp])
        (roots ++ [v]) hrest2len hrest2wk hvis2 hnd4 hdisj2 hcount2 hinv2 with
        ⟨nc, nr, hrun2, hperm2⟩
      refine ⟨comp :: nc, v :: nr, ?_, ?_⟩
      · rw [dfsGraphList, if_neg hvnv]
        rw [show dfsVisit tg fuel v ⟨visited, [], []⟩ =
          some ⟨visited ++ nv, l.reverse ++ [], [] ++ l⟩ from hrun]
        simp only [List.nil_append]
        rw [hbc]
        dsimp only
        rw [hrun2]
        simp
      · simp only [List.map_cons, List.join]
        exact ((hcompperm.trans hperm).append_right _).trans
          ((List.Perm.append_left nv hperm2).trans
            (filter_unvisited_perm hnd2 hnodup hprop).symm)

end SNG

namespace SNG

/-- In a duplicate-free concatenation, a member of the concatenation lies
in exactly one of the sublists (counted with multiplicity). -/
theorem countP_join_nodup (v : Int) :
    ∀ L : List (List Int), (L.join).Nodup → v ∈ L.join →
      L.countP (fun l => decide (v ∈ l)) = 1 := by
  intro L
  induction L with
  | nil => intro _ hv; simp at hv
  | cons l rest ih =>
    intro hnd hv
    simp only [List.join_cons] at hnd hv
    rw [List.nodup_append] at hnd
    obtain ⟨hndl, hndr, hdisj⟩ := hnd
    by_cases hvl : v ∈ l
    · rw [List.countP_cons_of_pos _ _ (by simpa using hvl)]
      have h0 : rest.countP (fun l2 => decide (v ∈ l2)) = 0 := by
        rw [List.countP_eq_zero]
        intro a ha
        simp only [decide_eq_true_eq]
        intro hva
        exact hdisj hvl (List.mem_join.mpr ⟨a, ha, hva⟩)
      rw [h0]
    · rw [List.countP_cons_of_neg _ _ (by simpa using hvl)]
      apply ih hndr
      rcases List.mem_append.mp hv with h | h
      · exact absurd h hvl
      · exact h

/-- On every well-formed graph, `getSCCs()` succeeds and the concatenation
of the returned components' key lists is a permutation of the graph's key
list. -/
theorem getSCCs_join_perm (g : CapGraph) (hwf : WF g) :
    ∃ r, getSCCs g = some r ∧
      ((r.comps.map keysList).join).Perm (keysList g) := by
  obtain ⟨hnd, hwf2⟩ := hwf
  have hcl : NbrClosed g := fun p hp n hn => (hwf2 p hp).2.1 n hn
  have hkeylen : (keysList g).length = g.listMap.length := by
    simp [keysList]
  have hlen0 : unvisitedCount g [] ≤ g.listMap.length := by
    simp only [unvisitedCount]
    exact le_trans (List.length_filter_le _ _) (le_of_eq hkeylen)
  rcases dfsLoop_spec g hnd hcl g.listMap.length (getVertexIDs g).reverse
      ⟨[], [], []⟩ (fun x hx => List.mem_reverse.mp hx)
      hlen0 (List.Perm.refl _) List.nodup_nil
      (fun x hx => absurd hx (List.not_mem_nil x))
    with ⟨finished, visitedF, hrun1, hfperm, hvnd, hvsub, hcov, _⟩
  have hvkeys : visitedF.Perm (keysList g) := by
    rw [List.perm_ext_iff_of_nodup hvnd hnd]
    intro a
    constructor
    · exact hvsub a
    · intro ha
      exact hcov a (List.mem_reverse.mpr ha)
  have hfkeys : finished.Perm (keysList g) := hfperm.trans hvkeys
  rcases transpose_spec g hcl with ⟨hnd2, hcl2, hkeq⟩
  have htgperm : (keysList (transpose g)).Perm (keysList g) :=
    (List.perm_ext_iff_of_nodup hnd2 hnd).mpr hkeq
  have hcount2 : unvisitedCount (transpose g) [] ≤ g.listMap.length := by
    simp only [unvisitedCount]
    exact le_trans (List.length_filter_le _ _)
      (le_of_eq (htgperm.length_eq.trans hkeylen))
  have hinv2 : ∀ k ∈ keysList (transpose g), k ∈ finished.reverse ∨ k ∈ ([] : List Int) := by
    intro k hk
    exact Or.inl (List.mem_reverse.mpr (hfkeys.mem_iff.mpr ((hkeq k).mp hk)))
  rcases dfsGraphList_spec g (transpose g) hnd2 hcl2
      (fun x hx => (hkeq x).mp hx) g.listMap.length (finished.length + 1)
      finished.reverse [] [] []
      (by rw [List.length_reverse]; omega)
      (fun x hx => (hkeq x).mpr (hfkeys.mem_iff.mp (List.mem_reverse.mp hx)))
      (fun x hx => absurd hx (List.not_mem_nil x))
      List.nodup_nil
      (fun x hx => List.not_mem_nil x)
      hcount2
      hinv2
    with ⟨nc, nr, hrun2, hperm2⟩
  have hfilter : (keysList (transpose g)).filter (fun k => k ∉ ([] : List Int)) =
      keysList (transpose g) :=
    List.filter_eq_self.mpr (fun a _ => by simp)
  rw [hfilter] at hperm2
  have hjoin : ((nc.map keysList).join).Perm (keysList g) := hperm2.trans htgperm
  have hscc : getSCCs g = some ⟨nc, finished, nr⟩ := by
    rw [getSCCs]
    rw [hrun1]
    dsimp only
    rw [hrun2]
    simp
  exact ⟨⟨nc, finished, nr⟩, hscc, hjoin⟩

/-- C3: on every well-formed graph, `getSCCs()` succeeds and the returned
components partition the vertex set: the concatenation of the components'
key lists is a permutation of `getVertexIDs()` (so the union of the
component vertex sets is the full vertex set), and every vertex of the
graph lies in exactly one returned component. -/
theorem getSCCs_partition (g : CapGraph) (hwf : WF g) :
    ∃ r, getSCCs g = some r ∧
      ((r.comps.map keysList).join).Perm (getVertexIDs g) ∧
      ∀ v ∈ getVertexIDs g, r.comps.countP (fun c => decide (v ∈ keysList c)) = 1 := by
  rcases getSCCs_join_perm g hwf with ⟨r, hscc, hjoin⟩
  refine ⟨r, hscc, hjoin, ?_⟩
  intro v hv
  have hjnd : ((r.comps.map keysList).join).Nodup := (List.Perm.nodup_iff hjoin).mpr hwf.1
  have hvj : v ∈ (r.comps.map keysList).join := hjoin.mem_iff.mpr hv
  have hone := countP_join_nodup v (r.comps.map keysList) hjnd hvj
  rw [List.countP_map] at hone
  simpa [Function.comp] using hone

/-- C3 witness: the partition theorem applied to the directed triangle
1 → 2 → 3 → 1. -/
theorem getSCCs_partition_witness :
    WF gTriangle ∧ ∃ r, getSCCs gTriangle = some r ∧
      ((r.comps.map keysList).join).Perm (getVertexIDs gTriangle) ∧
      ∀ v ∈ getVertexIDs gTriangle,
        r.comps.countP (fun c => decide (v ∈ keysList c)) = 1 :=
  ⟨by decide, getSCCs_partition gTriangle (by decide)⟩

end SNG

namespace SNG

/-- `find?`-then-`snd` over the entry list of `updateNode`: the looked-up
value is transformed exactly when the looked-up key is the updated one. -/
theorem find_snd_update (k : Int) (f : CapNode → CapNode) (j : Int) :
    ∀ m : List (Int × CapNode),
      ((m.map (fun p => if p.1 = k then (p.1, f p.2) else p)).find?
          (fun p => p.1 == j)).map Prod.snd =
        if j = k then ((m.find? (fun p => p.1 == j)).map Prod.snd).map f
        else (m.find? (fun p => p.1 == j)).map Prod.snd := by
  intro m
  induction m with
  | nil => simp only [List.map_nil, List.find?_nil]; split <;> rfl
  | cons p rest ih =>
    simp only [List.map_cons]
    by_cases hj : p.1 = j
    · have hpj : ((p.1 : Int) == j) = true := by simpa using hj
      have hkey : (((if p.1 = k then (p.1, f p.2) else p).1 : Int) == j) = true := by
        by_cases hk : p.1 = k
        · rw [if_pos hk]; simpa using hj
        · rw [if_neg hk]; simpa using hj
      rw [List.find?_cons, List.find?_cons, hkey, hpj]
      dsimp only
      by_cases hjk : j = k
      · rw [if_pos hjk, if_pos (hj.trans hjk)]
        rfl
      · rw [if_neg hjk, if_neg (fun h => hjk (hj.symm.trans h))]
    · have hpj : ((p.1 : Int) == j) = false := by simpa using hj
      have hkey : (((if p.1 = k then (p.1, f p.2) else p).1 : Int) == j) = false := by
        by_cases hk : p.1 = k
        · rw [if_pos hk]; simpa using hj
        · rw [if_neg hk]; simpa using hj
      rw [List.find?_cons, List.find?_cons, hkey, hpj]
      dsimp only
      exact ih

/-- `getVertex` after `updateNode`: only the updated key's value changes,
by the update function. -/
theorem getVertex_updateNode (g : CapGraph) (k : Int) (f : CapNode → CapNode) (j : Int) :
    getVertex (updateNode g k f) j =
      if j = k then (getVertex g j).map f else getVertex g j := by
  unfold getVertex updateNode
  exact find_snd_update k f j g.listMap

/-- `updateNode` with a flag-preserving function does not change any
observed trend-setter flag. -/
theorem flaggedIn_updateNode (g : CapGraph) (k : Int) (f : CapNode → CapNode)
    (hf : ∀ nd, (f nd).isTrendSetter = nd.isTrendSetter) (j : Int) :
    flaggedIn (updateNode g k f) j = flaggedIn g j := by
  unfold flaggedIn
  rw [getVertex_updateNode]
  by_cases hjk : j = k
  · rw [if_pos hjk]
    cases getVertex g j with
    | none => rfl
    | some nd => simp [hf]
  · rw [if_neg hjk]

/-- `addEdge` never changes any trend-setter flag (it only touches
neighbor and follower lists). -/
theorem flaggedIn_addEdge (g : CapGraph) (f t k : Int) :
    flaggedIn (addEdge g f t).2 k = flaggedIn g k := by
  unfold addEdge
  cases hgf : getVertex g f with
  | none => rfl
  | some nd =>
    dsimp only
    cases hgt : getVertex (updateNode g f
        (fun nd => { nd with neighbors := nd.neighbors ++ [t] })) t with
    | none =>
      exact flaggedIn_updateNode g f
        (fun nd => { nd with neighbors := nd.neighbors ++ [t] }) (fun nd => rfl) k
    | some nd2 =>
      dsimp only
      rw [flaggedIn_updateNode
        (updateNode g f (fun nd => { nd with neighbors := nd.neighbors ++ [t] })) t
        (fun nd => { nd with followers := nd.followers ++ [f] }) (fun nd => rfl) k]
      exact flaggedIn_updateNode g f
        (fun nd => { nd with neighbors := nd.neighbors ++ [t] }) (fun nd => rfl) k

/-- `removeEdge` never changes any trend-setter flag. -/
theorem flaggedIn_removeEdge (g : CapGraph) (f t k : Int) :
    flaggedIn (removeEdge g f t).2 k = flaggedIn g k := by
  unfold removeEdge
  cases hgf : getVertex g f with
  | none => rfl
  | some nd =>
    dsimp only
    exact flaggedIn_updateNode g f
      (fun nd => { nd with neighbors := removeNeighbor nd.neighbors t }) (fun nd => rfl) k

/-- `markTrendSetters`: the key list and every vertex's identity and edge
lists are unchanged, and observed flags are monotone (true stays true). -/
theorem markTrendSetters_spec (ids : List Int) : ∀ g : CapGraph,
    keysList (markTrendSetters g ids) = keysList g ∧
    (∀ k, (getVertex (markTrendSetters g ids) k).map nodeShape =
      (getVertex g k).map nodeShape) ∧
    (∀ k, flaggedIn g k = true → flaggedIn (markTrendSetters g ids) k = true) := by
  induction ids with
  | nil => intro g; exact ⟨rfl, fun k => rfl, fun k h => h⟩
  | cons id rest ih =>
    intro g
    have hfold : markTrendSetters g (id :: rest) =
        markTrendSetters (updateNode g id
          (fun nd => { nd with isTrendSetter := true })) rest := rfl
    obtain ⟨h1, h2, h3⟩ := ih (updateNode g id
      (fun nd => { nd with isTrendSetter := true }))
    rw [hfold]
    refine ⟨h1.trans (keysList_updateNode g id _), ?_, ?_⟩
    · intro k
      refine (h2 k).trans ?_
      rw [getVertex_updateNode]
      by_cases hk : k = id
      · rw [if_pos hk]
        cases getVertex g k with
        | none => rfl
        | some nd => rfl
      · rw [if_neg hk]
    · intro k hk
      refine h3 k ?_
      unfold flaggedIn at hk ⊢
      rw [getVertex_updateNode]
      by_cases hki : k = id
      · rw [if_pos hki]
        cases hg : getVertex g k with
        | none => rw [hg] at hk; simp at hk
        | some nd => rfl
      · rw [if_neg hki]
        exact hk

/-- The component loop of `identifyTrendSetters`: same key list, same
vertex identities and edge lists, monotone flags. -/
theorem identifyLoop_spec : ∀ (comps : List CapGraph) (g g2 : CapGraph),
    identifyLoop g comps = some g2 →
    keysList g2 = keysList g ∧
    (∀ k, (getVertex g2 k).map nodeShape = (getVertex g k).map nodeShape) ∧
    (∀ k, flaggedIn g k = true → flaggedIn g2 k = true) := by
  intro comps
  induction comps with
  | nil =>
    intro g g2 h
    simp only [identifyLoop, Option.some.injEq] at h
    subst h
    exact ⟨rfl, fun k => rfl, fun k h => h⟩
  | cons scc rest ih =>
    intro g g2 h
    rw [identifyLoop] at h
    dsimp only at h
    by_cases hsize : 2 < (getVertexIDs scc).length
    · rw [if_pos hsize] at h
      cases hq : buildNodeQueue g scc with
      | none => rw [hq] at h; exact absurd h (by simp)
      | some q =>
        rw [hq] at h
        dsimp only at h
        obtain ⟨i1, i2, i3⟩ := ih _ g2 h
        obtain ⟨m1, m2, m3⟩ := markTrendSetters_spec
          ((q.take (calculatePercent (getVertexIDs scc).length 1 10)).map CapNode.name) g
        exact ⟨i1.trans m1, fun k => (i2 k).trans (m2 k), fun k hk => i3 k (m3 k hk)⟩
    · rw [if_neg hsize] at h
      exact ih g g2 h

/-- C8: `identifyTrendSetters` never flips a trend-setter flag from true
to false — it can only add marks, so a second invocation never removes a
mark set earlier — and it leaves every vertex's identity, following and
followers lists and the graph's key set unchanged; `addEdge` and
`removeEdge` leave every observed flag exactly as it was.  (`addVertex`
on an existing ID is the exception recorded separately: it replaces the
vertex with a fresh unflagged one.) -/
theorem identifyTrendSetters_monotone_frame (g g2 : CapGraph)
    (h : identifyTrendSetters g = some g2) :
    keysList g2 = keysList g ∧
    (∀ k, (getVertex g2 k).map nodeShape = (getVertex g k).map nodeShape) ∧
    (∀ k, flaggedIn g k = true → flaggedIn g2 k = true) ∧
    (∀ f t k, flaggedIn (addEdge g f t).2 k = flaggedIn g k) ∧
    (∀ f t k, flaggedIn (removeEdge g f t).2 k = flaggedIn g k) := by
  unfold identifyTrendSetters at h
  cases hscc : getSCCs g with
  | none => rw [hscc] at h; exact absurd h (by simp)
  | some r =>
    rw [hscc] at h
    dsimp only at h
    obtain ⟨h1, h2, h3⟩ := identifyLoop_spec r.comps g g2 h
    exact ⟨h1, h2, h3, fun f t k => flaggedIn_addEdge g f t k,
      fun f t k => flaggedIn_removeEdge g f t k⟩

unseal List.merge List.mergeSort in
/-- C8 witness: the monotone/frame theorem applied to the triangle graph
1 → 2 → 3 → 1, on which `identifyTrendSetters` succeeds and flags one
vertex. -/
theorem identifyTrendSetters_monotone_frame_witness :
    identifyTrendSetters gTriangle = some gTriangleTS ∧
      (keysList gTriangleTS = keysList gTriangle ∧
       (∀ k, (getVertex gTriangleTS k).map nodeShape =
         (getVertex gTriangle k).map nodeShape) ∧
       (∀ k, flaggedIn gTriangle k = true → flaggedIn gTriangleTS k = true) ∧
       (∀ f t k, flaggedIn (addEdge gTriangle f t).2 k = flaggedIn gTriangle k) ∧
       (∀ f t k, flaggedIn (removeEdge gTriangle f t).2 k = flaggedIn gTriangle k)) :=
  ⟨by decide, identifyTrendSetters_monotone_frame gTriangle gTriangleTS (by decide)⟩

end SNG

namespace SNG

/-- Filtering a duplicate-free list by membership in a duplicate-free
subset keeps exactly the subset's elements. -/
theorem length_filter_mem {l S : List Int} (hnd : l.Nodup) (hndS : S.Nodup)
    (hsub : ∀ x ∈ S, x ∈ l) :
    (l.filter (fun x => decide (x ∈ S))).length = S.length := by
  have hperm : (l.filter (fun x => decide (x ∈ S))).Perm S := by
    rw [List.perm_ext_iff_of_nodup (hnd.filter _) hndS]
    intro a
    simp only [List.mem_filter, decide_eq_true_eq]
    exact ⟨fun h => h.2, fun h => ⟨hsub a h, h⟩⟩
  exact hperm.length_eq

/-- `flagCount` only depends on the flags observed at the listed IDs. -/
theorem flagCount_congr {g1 g2 : CapGraph} {ids : List Int}
    (h : ∀ x ∈ ids, flaggedIn g2 x = flaggedIn g1 x) :
    flagCount g2 ids = flagCount g1 ids := by
  unfold flagCount
  congr 1
  apply List.filter_congr
  intro x hx
  exact h x hx

/-- `lookupNodes` succeeds on IDs that are all keys, and (when lookups
report their own ID as name) the collected nodes' names are the IDs. -/
theorem lookupNodes_spec (g : CapGraph)
    (hlnc : ∀ id nd, getVertex g id = some nd → nd.name = id) :
    ∀ ids : List Int, (∀ x ∈ ids, x ∈ keysList g) →
      ∃ nodes, lookupNodes g ids = some nodes ∧
        nodes.map CapNode.name = ids := by
  intro ids
  induction ids with
  | nil => intro _; exact ⟨[], rfl, rfl⟩
  | cons id rest ih =>
    intro hsub
    rcases getVertex_some_of_mem_keys (hsub id (List.mem_cons_self _ _)) with ⟨nd, hnd⟩
    rcases ih (fun x hx => hsub x (List.mem_cons_of_mem _ hx)) with ⟨nodes, hrun, hnames⟩
    refine ⟨nd :: nodes, ?_, ?_⟩
    · simp only [lookupNodes, hnd, hrun]; rfl
    · simp only [List.map_cons, hnames, hlnc id nd hnd]

/-- `buildNodeQueue` succeeds whenever the component's keys are keys of
the graph, and the queue's names are a permutation of the component's
keys. -/
theorem buildNodeQueue_spec (g scc : CapGraph)
    (hlnc : ∀ id nd, getVertex g id = some nd → nd.name = id)
    (hsub : ∀ x ∈ keysList scc, x ∈ keysList g) :
    ∃ q, buildNodeQueue g scc = some q ∧
      (q.map CapNode.name).Perm (keysList scc) := by
  rcases lookupNodes_spec g hlnc (getVertexIDs scc) hsub with ⟨nodes, hrun, hnames⟩
  refine ⟨nodes.mergeSort (fun a b => b.neighbors.length ≤ a.neighbors.length), ?_, ?_⟩
  · simp only [buildNodeQueue, hrun]; rfl
  · have hperm : (nodes.mergeSort
        (fun a b => b.neighbors.length ≤ a.neighbors.length)).Perm nodes :=
      List.mergeSort_perm nodes _
    exact (hperm.map CapNode.name).trans (by rw [hnames]; exact List.Perm.refl _)

/-- Observed flags after `markTrendSetters`: a flag is set iff it was set
before or the ID is marked and present. -/
theorem flaggedIn_markTrendSetters (ids : List Int) : ∀ (g : CapGraph) (k : Int),
    flaggedIn (markTrendSetters g ids) k =
      (flaggedIn g k || (decide (k ∈ ids) && (getVertex g k).isSome)) := by
  induction ids with
  | nil => intro g k; simp [markTrendSetters]
  | cons id rest ih =>
    intro g k
    have hfold : markTrendSetters g (id :: rest) =
        markTrendSetters (updateNode g id
          (fun nd => { nd with isTrendSetter := true })) rest := rfl
    rw [hfold, ih]
    have hsome : (getVertex (updateNode g id
        (fun nd => { nd with isTrendSetter := true })) k).isSome =
        (getVertex g k).isSome := by
      rw [getVertex_updateNode]
      by_cases hk : k = id
      · rw [if_pos hk]; cases getVertex g k <;> rfl
      · rw [if_neg hk]
    have hflag : flaggedIn (updateNode g id
        (fun nd => { nd with isTrendSetter := true })) k =
        (flaggedIn g k || (decide (k = id) && (getVertex g k).isSome)) := by
      unfold flaggedIn
      rw [getVertex_updateNode]
      by_cases hk : k = id
      · rw [if_pos hk]
        cases getVertex g k with
        | none => simp
        | some nd => simp [hk]
      · rw [if_neg hk]
        simp [hk]
    rw [hflag, hsome]
    by_cases hk : k = id <;> by_cases hr : k ∈ rest <;>
      cases hf : flaggedIn g k <;> cases hs : (getVertex g k).isSome <;>
      simp [hk, hr, hf, hs, List.mem_cons]

end SNG

namespace SNG

/-- The component loop of `identifyTrendSetters`, counted: on
pairwise-disjoint, duplicate-free, initially unflagged components whose
members are keys of the threaded graph, the loop flags exactly
`calculatePercent size 1 10` members of every component of size above 2
and none of a smaller component, and never flags an ID outside the
components. -/
theorem identifyLoop_count : ∀ (comps : List CapGraph) (g g2 : CapGraph),
    identifyLoop g comps = some g2 →
    (∀ id nd, getVertex g id = some nd → nd.name = id) →
    (∀ c ∈ comps, ∀ x ∈ keysList c, x ∈ keysList g) →
    (∀ c ∈ comps, (keysList c).Nodup) →
    comps.Pairwise (fun c d => ∀ x ∈ keysList c, x ∉ keysList d) →
    (∀ c ∈ comps, ∀ x ∈ keysList c, flaggedIn g x = false) →
    (∀ c ∈ comps, flagCount g2 (keysList c) =
      if 2 < (keysList c).length then calculatePercent (keysList c).length 1 10 else 0) ∧
    (∀ k, flaggedIn g2 k = true →
      flaggedIn g k = true ∨ ∃ c ∈ comps, k ∈ keysList c) := by
  intro comps
  induction comps with
  | nil =>
    intro g g2 h hlnc hsub hndc hpair hfresh
    simp only [identifyLoop, Option.some.injEq] at h
    subst h
    exact ⟨fun c hc => absurd hc (List.not_mem_nil c), fun k hk => Or.inl hk⟩
  | cons scc rest ih =>
    intro g g2 h hlnc hsub hndc hpair hfresh
    rw [identifyLoop] at h
    dsimp only at h
    obtain ⟨hpairhead, hpairtail⟩ := List.pairwise_cons.mp hpair
    have hsubscc : ∀ x ∈ keysList scc, x ∈ keysList g := hsub scc (List.mem_cons_self _ _)
    have hndscc : (keysList scc).Nodup := hndc scc (List.mem_cons_self _ _)
    have hfreshscc : ∀ x ∈ keysList scc, flaggedIn g x = false :=
      hfresh scc (List.mem_cons_self _ _)
    by_cases hsize : 2 < (getVertexIDs scc).length
    · rw [if_pos hsize] at h
      rcases buildNodeQueue_spec g scc hlnc hsubscc with ⟨q, hq, hqperm⟩
      rw [hq] at h
      dsimp only at h
      have hgv : getVertexIDs scc = keysList scc := rfl
      rw [hgv] at h hsize
      set S := (q.take (calculatePercent (keysList scc).length 1 10)).map CapNode.name with hS
      have hql : q.length = (keysList scc).length := by
        have h1 := hqperm.length_eq
        simpa using h1
      have hnum_le : calculatePercent (keysList scc).length 1 10 ≤ q.length := by
        rw [hql]
        unfold calculatePercent
        omega
      have hqnd : (q.map CapNode.name).Nodup := (List.Perm.nodup_iff hqperm).mpr hndscc
      have hSnd : S.Nodup := by
        rw [hS, List.map_take]
        exact hqnd.sublist (List.take_sublist _ _)
      have hSsub : ∀ x ∈ S, x ∈ keysList scc := by
        intro x hx
        rw [hS, List.map_take] at hx
        exact hqperm.mem_iff.mp (List.mem_of_mem_take hx)
      have hSlen : S.length = calculatePercent (keysList scc).length 1 10 := by
        rw [hS, List.map_take, List.length_take, List.length_map]
        exact Nat.min_eq_left hnum_le
      have hflag1 : ∀ k, flaggedIn (markTrendSetters g S) k =
          (flaggedIn g k || (decide (k ∈ S) && (getVertex g k).isSome)) :=
        fun k => flaggedIn_markTrendSetters S g k
      have hlnc1 : ∀ id nd, getVertex (markTrendSetters g S) id = some nd → nd.name = id := by
        intro id nd hnd
        have h2 := ((markTrendSetters_spec S g).2.1) id
        rw [hnd] at h2
        cases hg : getVertex g id with
        | none => rw [hg] at h2; simp at h2
        | some nd0 =>
          rw [hg] at h2
          have hsh : nodeShape nd = nodeShape nd0 := by simpa using h2
          have hname : nd.name = nd0.name := congrArg Prod.fst hsh
          rw [hname]
          exact hlnc id nd0 hg
      have hkeys1 : keysList (markTrendSetters g S) = keysList g := (markTrendSetters_spec S g).1
      have hsub1 : ∀ c ∈ rest, ∀ x ∈ keysList c, x ∈ keysList (markTrendSetters g S) := by
        intro c hc x hx
        rw [hkeys1]
        exact hsub c (List.mem_cons_of_mem _ hc) x hx
      have hfresh1 : ∀ c ∈ rest, ∀ x ∈ keysList c,
          flaggedIn (markTrendSetters g S) x = false := by
        intro c hc x hx
        rw [hflag1 x]
        have hxS : x ∉ S := fun hmemS => hpairhead c hc x (hSsub x hmemS) hx
        rw [hfresh c (List.mem_cons_of_mem _ hc) x hx]
        simp [hxS]
      obtain ⟨hcount2, hframe2⟩ := ih (markTrendSetters g S) g2 h hlnc1 hsub1
        (fun c hc => hndc c (List.mem_cons_of_mem _ hc)) hpairtail hfresh1
      refine ⟨?_, ?_⟩
      · intro c hc
        rcases List.mem_cons.mp hc with rfl | hc
        · have hmono := (identifyLoop_spec rest (markTrendSetters g S) g2 h).2.2
          have hpoint : ∀ x ∈ keysList c,
              flaggedIn g2 x = flaggedIn (markTrendSetters g S) x := by
            intro x hx
            cases hb : flaggedIn (markTrendSetters g S) x with
            | true => exact hmono x hb
            | false =>
              cases hb2 : flaggedIn g2 x with
              | false => rfl
              | true =>
                rcases hframe2 x hb2 with h1 | ⟨d, hd, hxd⟩
                · rw [hb] at h1; exact absurd h1 (by simp)
                · exact absurd hxd (hpairhead d hd x hx)
          have hpoint2 : ∀ x ∈ keysList c,
              flaggedIn (markTrendSetters g S) x = decide (x ∈ S) := by
            intro x hx
            rw [hflag1 x, hfreshscc x hx]
            rcases getVertex_some_of_mem_keys (hsubscc x hx) with ⟨nd, hnd⟩
            rw [hnd]
            simp
          have hfc : flagCount (markTrendSetters g S) (keysList c) =
              ((keysList c).filter (fun x => decide (x ∈ S))).length := by
            unfold flagCount
            congr 1
            apply List.filter_congr
            intro x hx
            exact hpoint2 x hx
          rw [if_pos hsize, flagCount_congr hpoint, hfc,
            length_filter_mem hndscc hSnd hSsub, hSlen]
        · exact hcount2 c hc
      · intro k hk
        rcases hframe2 k hk with h1 | ⟨d, hd, hxd⟩
        · rw [hflag1 k] at h1
          rcases (Bool.or_eq_true _ _).mp h1 with h2 | h2
          · exact Or.inl h2
          · have hkS : k ∈ S := by
              rcases (Bool.and_eq_true _ _).mp h2 with ⟨hdec, _⟩
              simpa using hdec
            exact Or.inr ⟨scc, List.mem_cons_self _ _, hSsub k hkS⟩
        · exact Or.inr ⟨d, List.mem_cons_of_mem _ hd, hxd⟩
    · rw [if_neg hsize] at h
      obtain ⟨hcount2, hframe2⟩ := ih g g2 h hlnc
        (fun c hc => hsub c (List.mem_cons_of_mem _ hc))
        (fun c hc => hndc c (List.mem_cons_of_mem _ hc)) hpairtail
        (fun c hc => hfresh c (List.mem_cons_of_mem _ hc))
      refine ⟨?_, ?_⟩
      · intro c hc
        rcases List.mem_cons.mp hc with rfl | hc
        · have hzero : ∀ x ∈ keysList c, flaggedIn g2 x = false := by
            intro x hx
            cases hb2 : flaggedIn g2 x with
            | false => rfl
            | true =>
              rcases hframe2 x hb2 with h1 | ⟨d, hd, hxd⟩
              · rw [hfreshscc x hx] at h1; exact absurd h1 (by simp)
              · exact absurd hxd (hpairhead d hd x hx)
          have hnil : (keysList c).filter
              (fun id => ((getVertex g2 id).map CapNode.isTrendSetter).getD false) = [] := by
            rw [List.filter_eq_nil_iff]
            intro a ha
            have hz := hzero a ha
            unfold flaggedIn at hz
            simp [hz]
          have hsize2 : ¬ 2 < (keysList c).length := hsize
          rw [if_neg hsize2]
          unfold flagCount
          rw [hnil]
          rfl
        · exact hcount2 c hc
      · intro k hk
        rcases hframe2 k hk with h1 | ⟨d, hd, hxd⟩
        · exact Or.inl h1
        · exact Or.inr ⟨d, List.mem_cons_of_mem _ hd, hxd⟩

end SNG

namespace SNG

/-- C6: after `identifyTrendSetters()` runs on a fresh well-formed graph,
each returned component of size m > 2 has exactly ceil(0.1 × m) of its
members' trend-setter flags set in the resulting graph (which is the
original graph's vertex store, mutated), and components of size m ≤ 2
contribute zero flagged vertices. -/
theorem identifyTrendSetters_flag_count (g g2 : CapGraph) (r : SCCResult)
    (hwf : WF g) (hfg : FreshFlags g)
    (hscc : getSCCs g = some r) (hrun : identifyTrendSetters g = some g2) :
    ∀ comp ∈ r.comps, flagCount g2 (keysList comp) =
      if 2 < (keysList comp).length then
        calculatePercent (keysList comp).length 1 10 else 0 := by
  rcases getSCCs_join_perm g hwf with ⟨r2, hscc2, hjoin⟩
  rw [hscc] at hscc2
  injection hscc2 with he
  subst he
  unfold identifyTrendSetters at hrun
  rw [hscc] at hrun
  dsimp only at hrun
  have hlnc : ∀ id nd, getVertex g id = some nd → nd.name = id := by
    intro id nd hnd
    exact (hwf.2 (id, nd) (mem_listMap_of_getVertex hnd)).1
  have hjnd : ((r.comps.map keysList).join).Nodup :=
    (List.Perm.nodup_iff hjoin).mpr hwf.1
  obtain ⟨hallnd, hpairdisj⟩ := List.nodup_join.mp hjnd
  have hndc : ∀ c ∈ r.comps, (keysList c).Nodup :=
    fun c hc => hallnd (keysList c) (List.mem_map_of_mem keysList hc)
  have hpair : r.comps.Pairwise (fun c d => ∀ x ∈ keysList c, x ∉ keysList d) := by
    have hp := List.pairwise_map.mp hpairdisj
    exact hp.imp (fun hcd x hx hxd => hcd hx hxd)
  have hsub : ∀ c ∈ r.comps, ∀ x ∈ keysList c, x ∈ keysList g := by
    intro c hc x hx
    exact hjoin.mem_iff.mp
      (List.mem_join.mpr ⟨keysList c, List.mem_map_of_mem keysList hc, hx⟩)
  have hfresh : ∀ c ∈ r.comps, ∀ x ∈ keysList c, flaggedIn g x = false := by
    intro c hc x hx
    unfold flaggedIn
    cases hg : getVertex g x with
    | none => rfl
    | some nd =>
      have hmem := mem_listMap_of_getVertex hg
      have hflag : nd.isTrendSetter = false := hfg (x, nd) hmem
      simp [hflag]
  exact (identifyLoop_count r.comps g g2 hrun hlnc hsub hndc hpair hfresh).1

unseal List.merge List.mergeSort in
/-- C6 witness: the flag-count theorem applied to the triangle graph
1 → 2 → 3 → 1, whose single component has size 3 and so gets exactly
ceil(0.3) = 1 flagged member. -/
theorem identifyTrendSetters_flag_count_witness :
    (WF gTriangle ∧ FreshFlags gTriangle ∧
      getSCCs gTriangle = some gTriangleSCC ∧
      identifyTrendSetters gTriangle = some gTriangleTS) ∧
    ∀ comp ∈ gTriangleSCC.comps, flagCount gTriangleTS (keysList comp) =
      if 2 < (keysList comp).length then
        calculatePercent (keysList comp).length 1 10 else 0 :=
  ⟨⟨by decide, by decide, by decide, by decide⟩,
   identifyTrendSetters_flag_count gTriangle gTriangleTS gTriangleSCC
     (by decide) (by decide) (by decide) (by decide)⟩

end SNG
